import Mathlib

/-!
Shallow embedding of the `erl_tokenize` lexical analyzer (an Erlang tokenizer
written in Rust) together with theorems settling the frozen claims about it.

Texts are embedded as `List Char`; the Rust code addresses strings by byte
index but every index it forms lies on a character boundary, so character
indices are used throughout, with `utf8Len` supplying byte widths where the
source does byte arithmetic (positions, offsets).  All ASCII comparisons made
on bytes in the source (symbol tables, quote characters) coincide with the
character comparisons used here because no UTF-8 continuation byte equals an
ASCII byte.
-/

namespace ErlTokenize

/-- UTF-8 encoded byte length of a character (Rust `char::len_utf8`). -/
def utf8Len (c : Char) : Nat :=
  if c.toNat < 0x80 then 1
  else if c.toNat < 0x800 then 2
  else if c.toNat < 0x10000 then 3
  else 4

/-- `Position` (src/position.rs): byte offset, 1-based line, 1-based column.
The optional filepath plays no part in the arithmetic and is omitted. -/
structure Position where
  offset : Nat
  line : Nat
  column : Nat
deriving Repr, DecidableEq

def Position.new : Position := ⟨0, 1, 1⟩

/-- `Position::step_by_width` (src/position.rs:51-55). -/
def Position.step_by_width (p : Position) (width : Nat) : Position :=
  { p with offset := p.offset + width, column := p.column + width }

/-- `Position::step_by_char` (src/position.rs:71-81).  Note that the source
adds exactly 1 to `offset` in both branches. -/
def Position.step_by_char (p : Position) (c : Char) : Position :=
  if c = '\n' then { offset := p.offset + 1, line := p.line + 1, column := 1 }
  else { offset := p.offset + 1, line := p.line, column := p.column + 1 }

/-- `Position::step_by_text` (src/position.rs:58-69).  The source advances
newline-segment by newline-segment, adding byte lengths; this fold performs
the identical byte arithmetic one character at a time: each `\n` (one byte)
bumps the line and resets the column, every other character adds its UTF-8
width to both offset and column. -/
def Position.step_by_text (p : Position) : List Char → Position
  | [] => p
  | c :: rest =>
    if c = '\n' then
      Position.step_by_text { offset := p.offset + 1, line := p.line + 1, column := 1 } rest
    else
      Position.step_by_text
        { p with offset := p.offset + utf8Len c, column := p.column + utf8Len c } rest

/-- Error taxonomy (src/error.rs), restricted to the variants the embedded
recognizers can produce.  The extra `panicked` variant is NOT part of the
crate's error type: it marks the inputs on which the Rust code panics (the
out-of-range byte slice `text[start_line_end..end_line_start - 1]` in
`StringToken::parse_triple_quoted`), so that the total embedding reports
those inputs distinctly instead of asserting a return value the program
does not produce. -/
inductive Error where
  | noClosingQuotation (pos : Position)
  | invalidEscapedChar (pos : Position)
  | adjacentStringLiterals (pos : Position)
  | invalidAtomToken (pos : Position)
  | invalidCharToken (pos : Position)
  | invalidStringToken (pos : Position)
  | invalidIntegerToken (pos : Position)
  | invalidFloatToken (pos : Position)
  | invalidSymbolToken (pos : Position)
  | unknownKeyword (pos : Position) (keyword : List Char)
  | panicked
deriving Repr, DecidableEq

/-! ### Shared utilities (src/util.rs) -/

def hexDigit? (c : Char) : Option Nat :=
  if '0' ≤ c ∧ c ≤ '9' then some (c.toNat - '0'.toNat)
  else if 'a' ≤ c ∧ c ≤ 'f' then some (c.toNat - 'a'.toNat + 10)
  else if 'A' ≤ c ∧ c ≤ 'F' then some (c.toNat - 'A'.toNat + 10)
  else none

def hexFromDigits? (l : List Char) : Option Nat :=
  l.foldl (fun acc c => acc.bind fun a => (hexDigit? c).map fun d => a * 16 + d) (some 0)

/-- Rust `u32::from_str_radix(buf, 16)`: optional leading `+`, at least one
hex digit, value below `2^32`. -/
def rustHexU32? (l : List Char) : Option Nat :=
  let core := fun (ds : List Char) =>
    if ds = [] then none
    else (hexFromDigits? ds).bind fun n => if n < 2 ^ 32 then some n else none
  match l with
  | '+' :: ds => core ds
  | _ => core l

/-- Rust `char::from_u32`: valid Unicode scalar values only. -/
def charFromU32? (n : Nat) : Option Char :=
  if Nat.isValidChar n then some (Char.ofNat n) else none

def isOctalDigit (c : Char) : Bool := '0' ≤ c ∧ c ≤ '7'

/-- The `^` branch of `parse_escaped_char` (src/util.rs:81-84): one more
character, taken modulo 32. -/
def escape_caret (pos : Position) : List Char → Except Error (Char × Nat)
  | [] => .error (.invalidEscapedChar pos)
  | c2 :: _ => .ok (Char.ofNat (c2.toNat % 32), 2)

/-- The `x` branch of `parse_escaped_char` (src/util.rs:85-97): `{` hex-digits
`}` (the iterator also consumes the closing `}` when present), or exactly two
hex digits; the decoded value must be a Unicode scalar. -/
def escape_hex (pos : Position) : List Char → Except Error (Char × Nat)
  | [] => .error (.invalidEscapedChar pos)
  | c2 :: rest2 =>
    if c2 = '{' then
      let buf := rest2.takeWhile (· ≠ '}')
      let consumed := 2 + buf.length + (if buf.length < rest2.length then 1 else 0)
      match (rustHexU32? buf).bind charFromU32? with
      | none => .error (.invalidEscapedChar pos)
      | some ch => .ok (ch, consumed)
    else
      match rest2 with
      | [] => .error (.invalidEscapedChar pos)
      | c3 :: _ =>
        match (rustHexU32? [c2, c3]).bind charFromU32? with
        | none => .error (.invalidEscapedChar pos)
        | some ch => .ok (ch, 3)

/-- The octal branch of `parse_escaped_char` (src/util.rs:98-110), for first
digit `c`.  It reproduces the source literally: the accumulation step at
src/util.rs:102 adds `c.to_digit(8)` — the digit of the FIRST octal
character — at every iteration, not the digit just peeked. -/
def escape_octal (pos : Position) (c : Char) : List Char → Except Error (Char × Nat)
  | [] =>
    match charFromU32? (c.toNat - '0'.toNat) with
    | none => .error (.invalidEscapedChar pos)
    | some ch => .ok (ch, 1)
  | d1 :: r1 =>
    let d := c.toNat - '0'.toNat
    if isOctalDigit d1 then
      match r1 with
      | [] =>
        match charFromU32? (d * 8 + d) with
        | none => .error (.invalidEscapedChar pos)
        | some ch => .ok (ch, 2)
      | d2 :: _ =>
        if isOctalDigit d2 then
          match charFromU32? ((d * 8 + d) * 8 + d) with
          | none => .error (.invalidEscapedChar pos)
          | some ch => .ok (ch, 3)
        else
          match charFromU32? (d * 8 + d) with
          | none => .error (.invalidEscapedChar pos)
          | some ch => .ok (ch, 2)
    else
      match charFromU32? d with
      | none => .error (.invalidEscapedChar pos)
      | some ch => .ok (ch, 1)

/-- The dispatch on the character after the `\` (src/util.rs:71-112). -/
def escape_char_body (pos : Position) (c : Char) (rest : List Char) :
    Except Error (Char × Nat) :=
  if c = 'b' then .ok (Char.ofNat 8, 1)
    else if c = 'd' then .ok (Char.ofNat 127, 1)
    else if c = 'e' then .ok (Char.ofNat 27, 1)
    else if c = 'f' then .ok (Char.ofNat 12, 1)
    else if c = 'n' then .ok ('\n', 1)
    else if c = 'r' then .ok ('\r', 1)
    else if c = 's' then .ok (' ', 1)
    else if c = 't' then .ok ('\t', 1)
    else if c = 'v' then .ok (Char.ofNat 11, 1)
    else if c = '^' then escape_caret pos rest
    else if c = 'x' then escape_hex pos rest
    else if isOctalDigit c then escape_octal pos c rest
    else .ok (c, 1)

/-- `parse_escaped_char` (src/util.rs:65-113).  The Rust function pulls
characters from a shared iterator positioned just after the `\`; here it takes
that character list and returns the decoded character together with how many
characters it consumed. -/
def parse_escaped_char (pos : Position) : List Char → Except Error (Char × Nat)
  | [] => .error (.invalidEscapedChar pos)
  | c :: rest => escape_char_body pos c rest

/-! ### Quotation parser (src/util.rs:30-62) -/

/-- `Cow<'_, str>`: whether the decoded contents were borrowed (no escape in
the consumed span) or owned (escape decoding allocated). -/
inductive CowStr where
  | borrowed (chars : List Char)
  | owned (chars : List Char)
deriving Repr, DecidableEq

def CowStr.chars : CowStr → List Char
  | .borrowed s => s
  | .owned s => s

/-- Body of `parse_quotation_owned` (src/util.rs:48-62).  The `fuel` argument
bounds the recursion by the input length (each iteration consumes at least one
character); `i` is the index of the current character in the original input
(the source uses byte indices, char indices here). -/
def parse_quotation_owned_go (pos : Position) (term : Char) :
    Nat → List Char → Nat → Except Error (List Char × Nat)
  | 0, _, _ => .error (.noClosingQuotation pos)
  | _ + 1, [], _ => .error (.noClosingQuotation pos)
  | fuel + 1, c :: rest, i =>
    if c = '\\' then
      match parse_escaped_char (pos.step_by_width (1 + i)) rest with
      | .error e => .error e
      | .ok (d, k) =>
        match parse_quotation_owned_go pos term fuel (rest.drop k) (i + 1 + k) with
        | .error e => .error e
        | .ok (buf, e) => .ok (d :: buf, e)
    else if c = term then .ok ([], i)
    else
      match parse_quotation_owned_go pos term fuel rest (i + 1) with
      | .error e => .error e
      | .ok (buf, e) => .ok (c :: buf, e)

def parse_quotation_owned (pos : Position) (input : List Char) (term : Char) :
    Except Error (List Char × Nat) :=
  parse_quotation_owned_go pos term input.length input 0

/-- Rust `str::find(char)`: index of the first occurrence. -/
def first_index_of (term : Char) : List Char → Option Nat
  | [] => none
  | c :: rest =>
    if c = term then some 0 else (first_index_of term rest).map (· + 1)

/-- `parse_quotation` (src/util.rs:30-46): find the first occurrence of the
terminator; if a backslash occurs before it, run the owned (escape-decoding)
parser, otherwise borrow the consumed span.  The returned index is that of the
terminator within `input`. -/
def parse_quotation (pos : Position) (input : List Char) (term : Char) :
    Except Error (CowStr × Nat) :=
  match first_index_of term input with
  | none => .error (.noClosingQuotation pos)
  | some m =>
    if '\\' ∈ input.take m then
      match parse_quotation_owned pos input term with
      | .error e => .error e
      | .ok (s, e) => .ok (.owned s, e)
    else .ok (.borrowed (input.take m), m)

/-! ### Character class predicates (src/util.rs:7-28) -/

/-- Rust `c.is_lowercase() && c.is_alphabetic()` (src/util.rs:11), the Unicode
fallback of `is_atom_head_char`.  The full Unicode tables live in Rust's std
and are not reproduced here; on the ASCII range — the only range the claims
exercise — the conjunction is exactly `'a'..='z'`. -/
def is_lowercase_alphabetic (c : Char) : Bool := decide ('a' ≤ c ∧ c ≤ 'z')

def is_atom_head_char (c : Char) : Bool :=
  decide ('a' ≤ c ∧ c ≤ 'z') || is_lowercase_alphabetic c

/-- Rust `c.is_alphabetic()` (src/util.rs:18), modelled on the ASCII range for
the same reason as `is_lowercase_alphabetic`. -/
def is_alphabetic (c : Char) : Bool :=
  decide ('a' ≤ c ∧ c ≤ 'z') || decide ('A' ≤ c ∧ c ≤ 'Z')

def is_atom_non_head_char (c : Char) : Bool :=
  c = '@' || c = '_' || decide ('0' ≤ c ∧ c ≤ '9') || is_alphabetic c

/-! ### Atom tokens (src/tokens.rs:31-147) -/

structure AtomToken where
  value? : Option (List Char)
  text : List Char
  pos : Position
deriving Repr, DecidableEq

/-- `AtomToken::value` (src/tokens.rs:109-111): the decoded value when one was
stored (quoted atoms and `from_value`), the raw text otherwise. -/
def AtomToken.value (t : AtomToken) : List Char := t.value?.getD t.text

/-- The per-character escaping performed by `AtomToken::from_value`
(src/tokens.rs:52-58): only `'` and `\` are escaped. -/
def escape_atom_char (c : Char) : List Char :=
  if c = '\'' then ['\\', '\'']
  else if c = '\\' then ['\\', '\\']
  else [c]

def escape_atom : List Char → List Char
  | [] => []
  | c :: rest => escape_atom_char c ++ escape_atom rest

/-- `AtomToken::from_value` (src/tokens.rs:50-65). -/
def atom_from_value (v : List Char) (pos : Position) : AtomToken :=
  { value? := some v, text := '\'' :: (escape_atom v ++ ['\'']), pos }

/-- `AtomToken::from_text` (src/tokens.rs:68-93). -/
def atom_from_text (text : List Char) (pos : Position) : Except Error AtomToken :=
  match text with
  | [] => .error (.invalidAtomToken pos)
  | head :: tail =>
    if head = '\'' then
      match parse_quotation pos tail '\'' with
      | .error e => .error e
      | .ok (v, e) => .ok { value? := some v.chars, text := text.take (2 + e), pos }
    else if is_atom_head_char head then
      .ok { value? := none, text := head :: tail.takeWhile is_atom_non_head_char, pos }
    else .error (.invalidAtomToken pos)

/-! ### Char tokens (src/tokens.rs:173-257) -/

structure CharToken where
  value : Char
  text : List Char
  pos : Position
deriving Repr, DecidableEq

/-- `CharToken::from_text` (src/tokens.rs:201-222): a `$`, one more character,
and — when that character is `\` — the escape decoder on what follows. -/
def char_from_text (text : List Char) (pos : Position) : Except Error CharToken :=
  match text with
  | c0 :: c1 :: rest =>
    if c0 = '$' then
      if c1 = '\\' then
        match parse_escaped_char pos rest with
        | .error e => .error e
        | .ok (v, k) => .ok { value := v, text := text.take (2 + k), pos }
      else .ok { value := c1, text := ['$', c1], pos }
    else .error (.invalidCharToken pos)
  | _ => .error (.invalidCharToken pos)

/-! ### Keyword tokens (src/tokens.rs:827-936).  The `Keyword` enum itself
lives in the crate's `values` module; its constructors are exactly the 29
named in the match arms of `KeywordToken::from_text`. -/

inductive Keyword where
  | kwAfter | kwAnd | kwAndalso | kwBand | kwBegin | kwBnot | kwBor | kwBsl
  | kwBsr | kwBxor | kwCase | kwCatch | kwCond | kwDiv | kwEnd | kwFun
  | kwIf | kwLet | kwNot | kwOf | kwOr | kwOrelse | kwReceive | kwRem
  | kwTry | kwWhen | kwXor | kwMaybe | kwElse
deriving Repr, DecidableEq

/-- The match arms of `KeywordToken::from_text` (src/tokens.rs:852-882), in
source order: reserved-word spelling and the keyword returned for it. -/
def keywordTable : List (List Char × Keyword) :=
  [("after".toList, .kwAfter), ("and".toList, .kwAnd), ("andalso".toList, .kwAndalso),
   ("band".toList, .kwBand), ("begin".toList, .kwBegin), ("bnot".toList, .kwBnot),
   ("bor".toList, .kwBor), ("bsl".toList, .kwBsl), ("bsr".toList, .kwBsr),
   ("bxor".toList, .kwBxor), ("case".toList, .kwCase), ("catch".toList, .kwCatch),
   ("cond".toList, .kwCond), ("div".toList, .kwDiv), ("end".toList, .kwEnd),
   ("fun".toList, .kwFun), ("if".toList, .kwIf), ("let".toList, .kwLet),
   ("not".toList, .kwNot), ("of".toList, .kwOf), ("or".toList, .kwOr),
   ("orelse".toList, .kwOrelse), ("receive".toList, .kwReceive), ("rem".toList, .kwRem),
   ("try".toList, .kwTry), ("when".toList, .kwWhen), ("xor".toList, .kwXor),
   ("maybe".toList, .kwMaybe), ("else".toList, .kwElse)]

/-- The string match of `KeywordToken::from_text` (src/tokens.rs:852-883) as a
first-match lookup in the table of its arms. -/
def keyword_of_text (s : List Char) : Option Keyword :=
  (keywordTable.find? fun kv => kv.1 == s).map (·.2)

structure KeywordToken where
  value : Keyword
  pos : Position
deriving Repr, DecidableEq

/-- `KeywordToken::from_text` (src/tokens.rs:850-885): read an atom, then look
its TEXT (not its decoded value) up among the reserved words; on a miss,
report `UnknownKeyword` carrying that text. -/
def keyword_from_text (text : List Char) (pos : Position) : Except Error KeywordToken :=
  match atom_from_text text pos with
  | .error e => .error e
  | .ok atom =>
    match keyword_of_text atom.text with
    | some k => .ok { value := k, pos }
    | none => .error (.unknownKeyword pos atom.text)

/-! ### String tokens (src/tokens.rs:1094-1297) -/

/-- Rust `char::is_ascii_whitespace`: space, tab, newline, carriage return,
form feed. -/
def is_ascii_whitespace (c : Char) : Bool :=
  c = ' ' || c = '\t' || c = '\n' || c = '\r' || c = '\x0C'

/-- The first loop after the opening quotes of `parse_triple_quoted`
(src/tokens.rs:1164-1176): the rest of the opening line must be ASCII
whitespace and end in `\n`.  Returns how many characters it consumed
(including the newline). -/
def tq_opening_line (pos : Position) : List Char → Except Error Nat
  | [] => .error (.noClosingQuotation pos)
  | c :: rest =>
    if c = '\n' then .ok 1
    else if is_ascii_whitespace c then
      match tq_opening_line pos rest with
      | .error e => .error e
      | .ok n => .ok (n + 1)
    else .error (.invalidStringToken pos)

/-- State of the closing-quote scan of `parse_triple_quoted`
(src/tokens.rs:1178-1200). -/
structure TqScanState where
  indent : Nat
  maybeEndLine : Bool
  remainingQuotes : Nat
  endLineStart : Nat
  endLineEnd : Nat
deriving Repr, DecidableEq

/-- The closing-quote scan of `parse_triple_quoted` (src/tokens.rs:1183-1200);
the loop breaks as soon as `remainingQuotes` reaches 0. -/
def tq_scan (qc : Nat) : List Char → TqScanState → TqScanState
  | [], st => st
  | c :: rest, st =>
    let ele := st.endLineEnd + 1
    if c = '\n' then
      tq_scan qc rest { indent := 0, maybeEndLine := true, remainingQuotes := qc,
                        endLineStart := ele, endLineEnd := ele }
    else if is_ascii_whitespace c then
      tq_scan qc rest { st with indent := st.indent + 1, endLineEnd := ele }
    else if st.maybeEndLine ∧ c = '"' then
      if st.remainingQuotes - 1 = 0 then
        { st with remainingQuotes := 0, endLineEnd := ele }
      else
        tq_scan qc rest { st with remainingQuotes := st.remainingQuotes - 1, endLineEnd := ele }
    else
      tq_scan qc rest { st with maybeEndLine := false, endLineEnd := ele }

/-- Helper of `rustLines`, accumulating the current line.  A trailing `\r` is
stripped only from a line terminated by `\n` (i.e. only as part of a `\r\n`
terminator); a final line not terminated by `\n` keeps a trailing `\r`. -/
def rustLines_go : List Char → List Char → List (List Char)
  | [], cur => if cur = [] then [] else [cur]
  | c :: rest, cur =>
    if c = '\n' then
      (if cur.getLast? = some '\r' then cur.dropLast else cur) :: rustLines_go rest []
    else rustLines_go rest (cur ++ [c])

/-- Rust `str::lines`: lines are split at `\n` or `\r\n` line endings (the
`\r` being stripped only as part of a `\r\n` terminator), the final line
ending is optional (no trailing empty line when the text ends in `\n`), and a
final unterminated line keeps any trailing `\r`.  In particular no yielded
line ever contains `\n`. -/
def rustLines (l : List Char) : List (List Char) := rustLines_go l []

/-- The per-line stripping loop of `parse_triple_quoted`
(src/tokens.rs:1222-1232): the first `indent` characters must be ASCII
whitespace and are dropped, the remainder is kept. -/
def tq_strip_go (pos : Position) (indent : Nat) : List Char → Nat → Except Error (List Char)
  | [], _ => .ok []
  | c :: rest, i =>
    if i < indent then
      if is_ascii_whitespace c then tq_strip_go pos indent rest (i + 1)
      else .error (.invalidStringToken pos)
    else
      match tq_strip_go pos indent rest (i + 1) with
      | .error e => .error e
      | .ok v => .ok (c :: v)

/-- One iteration of the line loop of `parse_triple_quoted`
(src/tokens.rs:1215-1236).  The `line == "\n"` branch of the source
(src/tokens.rs:1216-1219) is kept although it can never fire: `str::lines`
strips every newline, so no line it yields equals `"\n"`.  A line producing no
kept character (`valid_line` stays false) is an error. -/
def tq_line_value (pos : Position) (indent : Nat) (line : List Char) :
    Except Error (List Char) :=
  if line = ['\n'] then .ok ['\n']
  else
    match tq_strip_go pos indent line 0 with
    | .error e => .error e
    | .ok v => if v = [] then .error (.invalidStringToken pos) else .ok v

/-- The line loop of `parse_triple_quoted` (src/tokens.rs:1214-1236): the kept
pieces of the lines are pushed into one buffer, with nothing between them. -/
def tq_lines_value (pos : Position) (indent : Nat) : List (List Char) → Except Error (List Char)
  | [] => .ok []
  | line :: rest =>
    match tq_line_value pos indent line with
    | .error e => .error e
    | .ok v =>
      match tq_lines_value pos indent rest with
      | .error e => .error e
      | .ok vs => .ok (v ++ vs)

/-- `StringToken::parse_triple_quoted` (src/tokens.rs:1150-1239).  Slices
`text[a..b]` are rendered as `(text.take b).drop a`; all the indices involved
fall on character boundaries.  In the `indent > 0` branch the source slices
`text[start_line_end..end_line_start - 1]` with no lower clamp (unlike the
`.max(start_line_end)` of the `indent == 0` branch), so when
`end_line_start - 1 < start_line_end` (closing line directly after the
opening line, e.g. `"""<nl> """`) the Rust program panics; the embedding
reports that outcome as the distinguished `panicked` result. -/
def parse_triple_quoted (text : List Char) (pos : Position) :
    Except Error (CowStr × Nat) :=
  let qc := (text.takeWhile (· = '"')).length
  match tq_opening_line pos (text.drop qc) with
  | .error e => .error e
  | .ok k =>
    let sle := qc + k
    let st := tq_scan qc (text.drop sle)
        { indent := 0, maybeEndLine := true, remainingQuotes := qc,
          endLineStart := sle, endLineEnd := sle }
    if st.remainingQuotes ≠ 0 then .error (.noClosingQuotation pos)
    else if st.indent = 0 then
      .ok (.owned ((text.take (max (st.endLineStart - 1) sle)).drop sle), st.endLineEnd)
    else if st.endLineStart - 1 < sle then .error .panicked
    else
      match tq_lines_value pos st.indent
          (rustLines ((text.take (st.endLineStart - 1)).drop sle)) with
      | .error e => .error e
      | .ok v => .ok (.owned v, st.endLineEnd)

/-- The recognizer inside `StringToken::from_text` (src/tokens.rs:1127-1136),
before the adjacent-literal check: the triple-quoted parser when the text
starts with three quotes, otherwise the quotation parser after the opening
quote, whose terminator index is converted to an exclusive end (`end + 2`). -/
def string_recognize (text : List Char) (pos : Position) : Except Error (CowStr × Nat) :=
  if text.take 3 = ['"', '"', '"'] then parse_triple_quoted text pos
  else if text.take 1 = ['"'] then
    match parse_quotation pos (text.drop 1) '"' with
    | .error e => .error e
    | .ok (v, e) => .ok (v, e + 2)
  else .error (.invalidStringToken pos)

structure StringToken where
  value? : Option (List Char)
  text : List Char
  pos : Position
deriving Repr, DecidableEq

/-- `StringToken::value` (src/tokens.rs:1255-1262): the stored decoded value
when present, otherwise `text[1..len-1]`. -/
def StringToken.value (t : StringToken) : List Char :=
  match t.value? with
  | some v => v
  | none => (t.text.drop 1).dropLast

/-- `StringToken::from_text` (src/tokens.rs:1122-1148).  After recognizing a
literal ending at `end`, a `"` immediately following makes the whole parse
fail with `AdjacentStringLiterals` at the position just past the literal. -/
def string_from_text (text : List Char) (pos : Position) : Except Error StringToken :=
  if text = [] then .error (.invalidStringToken pos)
  else
    match string_recognize text pos with
    | .error e => .error e
    | .ok (v, e) =>
      if (text.drop e).head? = some '"' then
        .error (.adjacentStringLiterals (pos.step_by_text (text.take e)))
      else
        .ok { value? := match v with | .borrowed _ => none | .owned s => some s,
              text := text.take e, pos }

/-! ### Integer tokens (src/tokens.rs:692-805) -/

/-- Rust `char::to_digit(radix)`: `0-9`, `a-z`, `A-Z`, value below the radix. -/
def to_digit? (radix : Nat) (c : Char) : Option Nat :=
  let v? : Option Nat :=
    if '0' ≤ c ∧ c ≤ '9' then some (c.toNat - '0'.toNat)
    else if 'a' ≤ c ∧ c ≤ 'z' then some (c.toNat - 'a'.toNat + 10)
    else if 'A' ≤ c ∧ c ≤ 'Z' then some (c.toNat - 'A'.toNat + 10)
    else none
  v?.bind fun v => if v < radix then some v else none

/-- Rust `char::is_digit(radix)`. -/
def is_digit (radix : Nat) (c : Char) : Bool := (to_digit? radix c).isSome

def natOfDecDigits (l : List Char) : Nat :=
  l.foldl (fun a c => a * 10 + (c.toNat - '0'.toNat)) 0

/-- Rust `str::parse::<u32>` on a run of decimal digits: nonempty and below
`2^32`. -/
def rustParseU32? (l : List Char) : Option Nat :=
  if l = [] then none
  else if natOfDecDigits l < 2 ^ 32 then some (natOfDecDigits l) else none

/-- `BigUint::parse_bytes(digits, radix)` (arbitrary precision, so a `Nat`):
`none` on an empty slice or any character without a digit value below the
radix. -/
def biguint_parse_bytes? (digits : List Char) (radix : Nat) : Option Nat :=
  if digits = [] then none
  else digits.foldl
    (fun acc c => acc.bind fun a => (to_digit? radix c).map fun v => a * radix + v)
    (some 0)

/-- Result state of the scanning loop of `IntegerToken::from_text`
(src/tokens.rs:716-745). -/
structure IntScan where
  consumed : Nat
  hasRadix : Bool
  radix : Nat
  digits : List Char
  needsDigit : Bool
deriving Repr, DecidableEq

/-- The scanning loop of `IntegerToken::from_text` (src/tokens.rs:722-742):
a `#` after at least one digit and before any earlier `#` reinterprets the
accumulated digits as the radix (a `u32` in `2..=36`) and restarts the digit
run; digits of the current radix accumulate; a `_` is allowed only directly
after a digit; anything else stops the scan. -/
def int_scan (pos : Position) :
    List Char → Bool → Nat → List Char → Bool → Except Error IntScan
  | [], h, r, d, n => .ok ⟨0, h, r, d, n⟩
  | c :: rest, h, r, d, n =>
    if c = '#' ∧ ¬h ∧ ¬n then
      match rustParseU32? d with
      | none => .error (.invalidIntegerToken pos)
      | some radix =>
        if 1 < radix ∧ radix < 37 then
          match int_scan pos rest true radix [] true with
          | .error e => .error e
          | .ok st => .ok { st with consumed := st.consumed + 1 }
        else .error (.invalidIntegerToken pos)
    else if is_digit r c then
      match int_scan pos rest h r (d ++ [c]) false with
      | .error e => .error e
      | .ok st => .ok { st with consumed := st.consumed + 1 }
    else if c = '_' ∧ ¬n then
      match int_scan pos rest h r d true with
      | .error e => .error e
      | .ok st => .ok { st with consumed := st.consumed + 1 }
    else .ok ⟨0, h, r, d, n⟩

structure IntegerToken where
  value : Nat
  text : List Char
  pos : Position
deriving Repr, DecidableEq

/-- `IntegerToken::from_text` (src/tokens.rs:716-752). -/
def int_from_text (text : List Char) (pos : Position) : Except Error IntegerToken :=
  match int_scan pos text false 10 [] true with
  | .error e => .error e
  | .ok st =>
    if st.needsDigit then .error (.invalidIntegerToken pos)
    else
      match biguint_parse_bytes? st.digits st.radix with
      | none => .error (.invalidIntegerToken pos)
      | some v => .ok { value := v, text := text.take st.consumed, pos }

/-! Specification-side grammar of integer token texts, transcribed from the
spec's description of `IntegerToken::from_text` (a digit run with embedded `_`
separators, each `_` both preceded and followed by a digit; an optional `#`
reinterpreting the first run as a radix in `2..=36` followed by a second run
in that radix), for comparison with the code's scanner. -/

/-- Continuation of a digit run directly after a digit: empty, or a digit
followed by a continuation, or a `_` followed by a digit and a
continuation. -/
def spec_run_tail (r : Nat) : List Char → Bool
  | [] => true
  | c :: rest =>
    if c = '_' then
      match rest with
      | [] => false
      | c2 :: rest2 => is_digit r c2 && spec_run_tail r rest2
    else is_digit r c && spec_run_tail r rest

/-- A digit run: a digit followed by a run continuation. -/
def spec_run (r : Nat) : List Char → Bool
  | [] => false
  | c :: rest => is_digit r c && spec_run_tail r rest

/-- Spec-side shape of a complete integer token text: a base-10 digit run,
optionally followed by `#` and a digit run in the radix named by the first
run's digits (underscores dropped), the radix lying in `2..=36`. -/
def ValidIntegerText (text : List Char) : Prop :=
  spec_run 10 text = true ∨
  ∃ run1 run2, text = run1 ++ '#' :: run2 ∧ spec_run 10 run1 = true ∧
    2 ≤ natOfDecDigits (run1.filter fun c => c != '_') ∧
    natOfDecDigits (run1.filter fun c => c != '_') ≤ 36 ∧
    spec_run (natOfDecDigits (run1.filter fun c => c != '_')) run2 = true

/-! ### Float tokens (src/tokens.rs:413-661).  The source computes the value
in `f64`; the embedding computes in exact rationals.  Every claim exercising
these definitions involves only small dyadic values on which the `f64`
computation is exact, so no rounding is modelled. -/

/-- `FloatToken::is_based` (src/tokens.rs:495-506). -/
def float_is_based : List Char → Nat → Bool
  | [], _ => false
  | c :: rest, i =>
    if ('0' ≤ c ∧ c ≤ '9') ∨ c = '_' then float_is_based rest (i + 1)
    else if 0 < i ∧ c = '#' then true
    else false

/-- Core of `FloatToken::parse_digits` (src/tokens.rs:508-529) after the
optional leading `-`: decimal digits with single embedded `_` separators,
ending in a digit; returns the digits with the separators dropped. -/
def float_parse_digits_core : List Char → Bool → Option (List Char)
  | [], prev => if prev then some [] else none
  | c :: rest, prev =>
    if '0' ≤ c ∧ c ≤ '9' then
      match float_parse_digits_core rest true with
      | none => none
      | some ds => some (c :: ds)
    else if prev ∧ c = '_' then float_parse_digits_core rest false
    else none

/-- `FloatToken::parse_digits::<T>` (src/tokens.rs:508-529) for a signed
target: optional leading `-`, then the digit run. -/
def float_parse_digits_int? (l : List Char) : Option Int :=
  match l with
  | [] => none
  | c :: rest =>
    if c = '-' then
      match float_parse_digits_core rest false with
      | none => none
      | some ds => some (-(natOfDecDigits ds : Int))
    else
      match float_parse_digits_core (c :: rest) false with
      | none => none
      | some ds => some ((natOfDecDigits ds : Int))

/-- `parse_digits::<u32>` as used for the radix: a negative or `2^32`-or-larger
value fails `str::parse::<u32>`. -/
def float_parse_radix? (l : List Char) : Option Nat :=
  match float_parse_digits_int? l with
  | none => none
  | some v => if 0 ≤ v ∧ v < 2 ^ 32 then some v.toNat else none

/-- `parse_digits::<i32>` as used for the exponent: `str::parse::<i32>` fails
outside the `i32` range. -/
def float_parse_exp? (l : List Char) : Option Int :=
  match float_parse_digits_int? l with
  | none => none
  | some v => if -(2 ^ 31) ≤ v ∧ v < 2 ^ 31 then some v else none

/-- The integer-part loop of `FloatToken::from_text_radix`
(src/tokens.rs:544-563).  Returns the accumulated value, the final
`is_prev_digit`, and the unconsumed remainder (the loop either exhausts the
input or breaks just after a `.` that follows a digit). -/
def ftr_int_loop (pos : Position) (radix : Nat) :
    List Char → ℚ → Bool → Except Error (ℚ × Bool × List Char)
  | [], v, prev => .ok (v, prev, [])
  | c :: rest, v, prev =>
    if prev ∧ c = '_' then ftr_int_loop pos radix rest v false
    else if prev ∧ c = '.' then .ok (v, true, rest)
    else
      match to_digit? radix c with
      | none => .error (.invalidFloatToken pos)
      | some n => ftr_int_loop pos radix rest (v * radix + n) true

/-- The fraction loop of `FloatToken::from_text_radix`
(src/tokens.rs:568-592).  Returns the value, the final `is_prev_digit`,
whether a `#` (exponent marker) was consumed, and the remainder. -/
def ftr_frac_loop (radix : Nat) :
    List Char → ℚ → Bool → Nat → (ℚ × Bool × Bool × List Char)
  | [], v, prev, _ => (v, prev, false, [])
  | c :: rest, v, prev, j =>
    if prev ∧ c = '_' then ftr_frac_loop radix rest v false j
    else if prev ∧ c = '#' then (v, true, true, rest)
    else
      match to_digit? radix c with
      | some n => ftr_frac_loop radix rest (v + (n : ℚ) / (radix : ℚ) ^ j) true (j + 1)
      | none => (v, prev, false, c :: rest)

/-- The exponent-extent scan of `FloatToken::from_text_radix`
(src/tokens.rs:602-605): the length of the maximal prefix of characters
satisfying `(i == 0 ∧ '-') ∨ digit ∨ '_'`. -/
def ftr_exp_len : List Char → Nat → Nat
  | [], _ => 0
  | c :: rest, i =>
    if (i = 0 ∧ c = '-') ∨ ('0' ≤ c ∧ c ≤ '9') ∨ c = '_' then ftr_exp_len rest (i + 1) + 1
    else 0

structure FloatToken where
  value : ℚ
  text : List Char
  pos : Position
deriving Repr, DecidableEq

/-- `FloatToken::from_text_radix` (src/tokens.rs:531-614). -/
def float_from_text_radix (text : List Char) (pos : Position) : Except Error FloatToken :=
  match first_index_of '#' text with
  | none => .error (.invalidFloatToken pos)
  | some i =>
    match float_parse_radix? (text.take i) with
    | none => .error (.invalidFloatToken pos)
    | some radix =>
      if ¬(1 < radix ∧ radix < 37) then .error (.invalidFloatToken pos)
      else
        let s := text.drop (i + 1)
        if s = [] then .error (.invalidFloatToken pos)
        else
          match ftr_int_loop pos radix s 0 false with
          | .error e => .error e
          | .ok (v1, prev1, s1) =>
            if ¬prev1 ∨ s1 = [] then .error (.invalidFloatToken pos)
            else
              match ftr_frac_loop radix s1 v1 false 1 with
              | (v2, prev2, hasExp, s2) =>
                if ¬prev2 then .error (.invalidFloatToken pos)
                else if hasExp then
                  match s2 with
                  | [] => .error (.invalidFloatToken pos)
                  | c :: s3 =>
                    if c = 'e' then
                      let n := ftr_exp_len s3 0
                      match float_parse_exp? (s3.take n) with
                      | none => .error (.invalidFloatToken pos)
                      | some exp =>
                        let s4 := s3.drop n
                        let value := v2 * (radix : ℚ) ^ exp
                        .ok { value, text := text.take (text.length - s4.length), pos }
                    else .error (.invalidFloatToken pos)
                else
                  .ok { value := v2, text := text.take (text.length - s2.length), pos }

/-- `read_digits` inside `FloatToken::from_text` (src/tokens.rs:442-465):
greedy over digits and `_`, a `_` only directly after a digit, must end having
just seen a digit.  Returns the pushed digits (separators dropped) and the
unconsumed remainder. -/
def float_read_digits : List Char → Bool → Option (List Char × List Char)
  | [], needs => if needs then none else some ([], [])
  | c :: rest, needs =>
    if '0' ≤ c ∧ c ≤ '9' then
      match float_read_digits rest false with
      | none => none
      | some (ds, r) => some (c :: ds, r)
    else if c = '_' then
      if needs then none else float_read_digits rest true
    else if needs then none
    else some ([], c :: rest)

/-- The exact rational denoted by the decimal literal the source assembles in
`buf` and hands to `str::parse::<f64>` (src/tokens.rs:489-491); `f64` rounding
is not modelled (no claim depends on a decimal float value). -/
def decimal_float_value (ds1 ds2 : List Char) (exp : Int) : ℚ :=
  ((natOfDecDigits ds1 : ℚ) + (natOfDecDigits ds2 : ℚ) / 10 ^ ds2.length) * (10 : ℚ) ^ exp

/-- `FloatToken::from_text` (src/tokens.rs:437-493): dispatch to the radix
form when `is_based`, otherwise digits `.` digits with an optional
`e|E [+|-] digits` exponent. -/
def float_from_text (text : List Char) (pos : Position) : Except Error FloatToken :=
  if float_is_based text 0 then float_from_text_radix text pos
  else
    match float_read_digits text true with
    | none => .error (.invalidFloatToken pos)
    | some (ds1, r1) =>
      match r1 with
      | '.' :: r2 =>
        (match float_read_digits r2 true with
         | none => .error (.invalidFloatToken pos)
         | some (ds2, r3) =>
           match r3 with
           | 'e' :: r4 =>
             (match r4 with
              | '+' :: r5 =>
                (match float_read_digits r5 true with
                 | none => .error (.invalidFloatToken pos)
                 | some (ds3, r6) =>
                   .ok { value := decimal_float_value ds1 ds2 (natOfDecDigits ds3 : Int),
                         text := text.take (text.length - r6.length), pos })
              | '-' :: r5 =>
                (match float_read_digits r5 true with
                 | none => .error (.invalidFloatToken pos)
                 | some (ds3, r6) =>
                   .ok { value := decimal_float_value ds1 ds2 (-(natOfDecDigits ds3 : Int)),
                         text := text.take (text.length - r6.length), pos })
              | _ =>
                match float_read_digits r4 true with
                | none => .error (.invalidFloatToken pos)
                | some (ds3, r6) =>
                  .ok { value := decimal_float_value ds1 ds2 (natOfDecDigits ds3 : Int),
                        text := text.take (text.length - r6.length), pos })
           | 'E' :: r4 =>
             (match r4 with
              | '+' :: r5 =>
                (match float_read_digits r5 true with
                 | none => .error (.invalidFloatToken pos)
                 | some (ds3, r6) =>
                   .ok { value := decimal_float_value ds1 ds2 (natOfDecDigits ds3 : Int),
                         text := text.take (text.length - r6.length), pos })
              | '-' :: r5 =>
                (match float_read_digits r5 true with
                 | none => .error (.invalidFloatToken pos)
                 | some (ds3, r6) =>
                   .ok { value := decimal_float_value ds1 ds2 (-(natOfDecDigits ds3 : Int)),
                         text := text.take (text.length - r6.length), pos })
              | _ =>
                match float_read_digits r4 true with
                | none => .error (.invalidFloatToken pos)
                | some (ds3, r6) =>
                  .ok { value := decimal_float_value ds1 ds2 (natOfDecDigits ds3 : Int),
                        text := text.take (text.length - r6.length), pos })
           | _ =>
             .ok { value := decimal_float_value ds1 ds2 0,
                   text := text.take (text.length - r3.length), pos })
      | _ => .error (.invalidFloatToken pos)

/-! ### Symbol tokens (src/tokens.rs:1318-1459).  The `Symbol` enum lives in
the crate's `values` module; its constructors are exactly those named in the
match arms of `SymbolToken::from_text`. -/

inductive Symbol where
  | ExactEq | ExactNotEq | TripleDot | StrictLeftArrow | StrictDoubleLeftArrow
  | DoubleColon | MapMatch | DoubleVerticalBar | MinusMinus | PlusPlus
  | RightArrow | LeftArrow | DoubleRightArrow | DoubleLeftArrow
  | DoubleRightAngle | DoubleLeftAngle | Eq | NotEq | GreaterEq | LessEq
  | DoubleQuestion | MaybeMatch | DoubleDot | DoubleAmpersand
  | OpenSquare | CloseSquare | OpenParen | CloseParen | OpenBrace | CloseBrace
  | Sharp | Slash | Dot | Comma | Colon | Semicolon | Match | VerticalBar
  | Question | Not | Hyphen | Plus | Multiply | Greater | Less
deriving Repr, DecidableEq

/-- The 3-character symbol table (spellings paired with the symbols the source
returns for them, src/tokens.rs:1344-1350). -/
def table3 : List (List Char × Symbol) :=
  [("=:=".toList, .ExactEq), ("=/=".toList, .ExactNotEq), ("...".toList, .TripleDot),
   ("<:-".toList, .StrictLeftArrow), ("<:=".toList, .StrictDoubleLeftArrow)]

/-- The 2-character symbol table (src/tokens.rs:1356-1377). -/
def table2 : List (List Char × Symbol) :=
  [("::".toList, .DoubleColon), (":=".toList, .MapMatch), ("||".toList, .DoubleVerticalBar),
   ("--".toList, .MinusMinus), ("++".toList, .PlusPlus), ("->".toList, .RightArrow),
   ("<-".toList, .LeftArrow), ("=>".toList, .DoubleRightArrow), ("<=".toList, .DoubleLeftArrow),
   (">>".toList, .DoubleRightAngle), ("<<".toList, .DoubleLeftAngle), ("==".toList, .Eq),
   ("/=".toList, .NotEq), (">=".toList, .GreaterEq), ("=<".toList, .LessEq),
   ("??".toList, .DoubleQuestion), ("?=".toList, .MaybeMatch), ("..".toList, .DoubleDot),
   ("&&".toList, .DoubleAmpersand)]

/-- The 1-character symbol table (src/tokens.rs:1380-1402). -/
def table1 : List (List Char × Symbol) :=
  [("[".toList, .OpenSquare), ("]".toList, .CloseSquare), ("(".toList, .OpenParen),
   (")".toList, .CloseParen), ("\x7b".toList, .OpenBrace), ("\x7d".toList, .CloseBrace),
   ("#".toList, .Sharp), ("/".toList, .Slash), (".".toList, .Dot), (",".toList, .Comma),
   (":".toList, .Colon), (";".toList, .Semicolon), ("=".toList, .Match),
   ("|".toList, .VerticalBar), ("?".toList, .Question), ("!".toList, .Not),
   ("-".toList, .Hyphen), ("+".toList, .Plus), ("*".toList, .Multiply),
   (">".toList, .Greater), ("<".toList, .Less)]


/-- The three-byte match of `SymbolToken::from_text` (src/tokens.rs:1343-1354)
as a first-match lookup of the first three characters in the table of its
arms (a `take 3` shorter than 3 matches no row, exactly as the source's
`bytes.len() >= 3` guard). -/
def sym3 (t : List Char) : Option Symbol :=
  (table3.find? fun kv => kv.1 == t).map (·.2)

/-- The two-byte match of `SymbolToken::from_text` (src/tokens.rs:1355-1378). -/
def sym2 (t : List Char) : Option Symbol :=
  (table2.find? fun kv => kv.1 == t).map (·.2)

/-- The one-byte match of `SymbolToken::from_text` (src/tokens.rs:1379-1404). -/
def sym1 (t : List Char) : Option Symbol :=
  (table1.find? fun kv => kv.1 == t).map (·.2)

structure SymbolToken where
  value : Symbol
  pos : Position
deriving Repr, DecidableEq

/-- `SymbolToken::from_text` (src/tokens.rs:1341-1410): try the 3-character
spellings on the first three bytes, then the 2-character spellings, then the
1-character ones. -/
def symbol_from_text (text : List Char) (pos : Position) : Except Error SymbolToken :=
  match sym3 (text.take 3) with
  | some v => .ok { value := v, pos }
  | none =>
    match sym2 (text.take 2) with
    | some v => .ok { value := v, pos }
    | none =>
      match sym1 (text.take 1) with
      | some v => .ok { value := v, pos }
      | none => .error (.invalidSymbolToken pos)


/-- The 29 reserved words of the claim (spec §6). -/
def reservedWords : List (List Char) :=
  ["after".toList, "and".toList, "andalso".toList, "band".toList, "begin".toList,
   "bnot".toList, "bor".toList, "bsl".toList, "bsr".toList, "bxor".toList,
   "case".toList, "catch".toList, "cond".toList, "div".toList, "end".toList,
   "fun".toList, "if".toList, "let".toList, "maybe".toList, "else".toList,
   "not".toList, "of".toList, "or".toList, "orelse".toList, "receive".toList,
   "rem".toList, "try".toList, "when".toList, "xor".toList]

end ErlTokenize

namespace ErlTokenize

/-- C3: `Position::step_by_char(c)` claims to advance the byte offset by the
UTF-8 length of `c`; the source (src/position.rs:71-81) adds exactly 1 in both
branches, so for the three-byte character `应` (U+5E94) the offset advances by
1 rather than by `utf8Len '应' = 3`.  The newline/column behavior matches the
claim. -/
theorem claim_C3_step_by_char : ∀ p : Position,
    p.step_by_char '\n' = ⟨p.offset + 1, p.line + 1, 1⟩ ∧
    p.step_by_char 'x' = ⟨p.offset + 1, p.line, p.column + 1⟩ ∧
    p.step_by_char '应' = ⟨p.offset + 1, p.line, p.column + 1⟩ ∧
    utf8Len '应' = 3 ∧
    (p.step_by_char '应').offset ≠ p.offset + utf8Len '应' := by
  intro p
  refine ⟨rfl, rfl, rfl, rfl, ?_⟩
  show p.offset + 1 ≠ p.offset + 3
  omega

/-- C1: on `"""<nl> a<nl> b<nl> """` — closing quotes indented by one column,
two content lines each beginning with one space — `StringToken::from_text`
succeeds and strips the indentation, but concatenates the stripped lines
WITHOUT the separating newline: the value is `ab`, not the claim's `a\nb`.
The `line == "\n"` branch of src/tokens.rs:1216 is dead because `str::lines`
strips every newline, so the newline separators are silently lost; for the
same reason an empty content line under positive indentation
(`"""<nl> a<nl><nl> a<nl> """`) is rejected instead of contributing a
newline. -/
theorem claim_C1_triple_quoted_value :
    (string_from_text "\"\"\"\n a\n b\n \"\"\"".toList Position.new).map StringToken.value
        = .ok "ab".toList ∧
    "ab".toList ≠ "a\nb".toList ∧
    (string_from_text "\"\"\"\n a\n\n a\n \"\"\"".toList Position.new).map StringToken.value
        = .error (.invalidStringToken Position.new) :=
  ⟨rfl, by decide, rfl⟩

/-- C4 counterexample: on the quoted atom `'and'` the atom read succeeds and
its decoded text `and` is one of the 29 reserved words, yet
`KeywordToken::from_text` reports `UnknownKeyword` — carrying the atom's raw
text `'and'` (quotes included), not the decoded text — because the lookup at
src/tokens.rs:852 uses `atom.text()`, not the decoded value. -/
theorem claim_C4_counterexample :
    (atom_from_text "'and'".toList Position.new).map AtomToken.value = .ok "and".toList ∧
    "and".toList ∈ reservedWords ∧
    keyword_from_text "'and'".toList Position.new =
      .error (.unknownKeyword Position.new "'and'".toList) :=
  ⟨rfl, by decide, rfl⟩

/-- C8: `FloatToken::from_text` on `2#0.10101#e8` succeeds, consuming the
whole input as its text, with value 168 — which is exactly the radix rule
`Σ dᵢ·2ⁱ + Σ dⱼ·2⁻ʲ` times `2^8` for digits `0 . 1 0 1 0 1` and exponent 8. -/
theorem claim_C8_radix_float_example :
    float_from_text "2#0.10101#e8".toList Position.new =
      .ok { value := 168, text := "2#0.10101#e8".toList, pos := Position.new } ∧
    ((0 : ℚ) + (1 : ℚ) / 2 ^ 1 + (0 : ℚ) / 2 ^ 2 + (1 : ℚ) / 2 ^ 3 + (0 : ℚ) / 2 ^ 4
        + (1 : ℚ) / 2 ^ 5) * (2 : ℚ) ^ (8 : ℕ) = 168 := by
  constructor
  · simp +decide [float_from_text, float_is_based, float_from_text_radix, first_index_of,
      float_parse_radix?, float_parse_digits_int?, float_parse_digits_core, natOfDecDigits,
      ftr_int_loop, ftr_frac_loop, ftr_exp_len, float_parse_exp?, to_digit?]
    norm_num
  · norm_num

/-- C9 counterexample: the triple-quoted string `"""<nl>foo<nl>"""` contains
no backslash, yet its value `foo` is neither the text between its first and
last characters nor the text between the `"""` delimiters — triple-quoted
tokens always store an owned, indentation-processed value. -/
theorem claim_C9_counterexample :
    (string_from_text "\"\"\"\nfoo\n\"\"\"".toList Position.new).map
        (fun t => (t.value, t.text)) =
      .ok ("foo".toList, "\"\"\"\nfoo\n\"\"\"".toList) ∧
    '\\' ∉ "\"\"\"\nfoo\n\"\"\"".toList ∧
    "foo".toList ≠ ("\"\"\"\nfoo\n\"\"\"".toList.drop 1).dropLast ∧
    "foo".toList ≠ ("\"\"\"\nfoo\n\"\"\"".toList.drop 3).dropLast.dropLast.dropLast :=
  ⟨rfl, by decide, by decide, by decide⟩

/-- The reserved-word lookup of `KeywordToken::from_text` succeeds exactly on
the members of `reservedWords`. -/
theorem keyword_of_text_isSome_iff (s : List Char) :
    (keyword_of_text s).isSome = true ↔ s ∈ reservedWords := by
  unfold keyword_of_text
  constructor
  · intro h
    cases hf : keywordTable.find? (fun kv => kv.1 == s) with
    | none => rw [hf] at h; simp at h
    | some kv =>
      have hmem := List.mem_of_find?_eq_some hf
      have heq := List.find?_some hf
      rw [beq_iff_eq] at heq
      rw [← heq]
      have hall : ∀ kv ∈ keywordTable, kv.1 ∈ reservedWords := by decide
      exact hall kv hmem
  · intro hm
    have hex : ∀ x ∈ reservedWords, ∃ kv ∈ keywordTable, kv.1 = x := by decide
    obtain ⟨kv, hkv, heq⟩ := hex s hm
    have hsome : (keywordTable.find? fun kv => kv.1 == s).isSome = true :=
      List.find?_isSome.mpr ⟨kv, hkv, by rw [beq_iff_eq]; exact heq⟩
    cases hf : keywordTable.find? (fun kv => kv.1 == s) with
    | none => rw [hf] at hsome; simp at hsome
    | some kv' => simp [hf]

/-- C4 (amended): `KeywordToken::from_text` first reads an atom; whenever the
atom read succeeds, it returns a keyword token exactly when the atom's SOURCE
text (`atom.text()`, which for a quoted atom includes the quotes and escapes)
is one of the 29 reserved words, and an `UnknownKeyword` error carrying that
source text otherwise. -/
theorem claim_C4_keyword_from_text (text : List Char) (p : Position) (a : AtomToken)
    (h : atom_from_text text p = .ok a) :
    ((∃ k, keyword_from_text text p = .ok k) ↔ a.text ∈ reservedWords) ∧
    (a.text ∉ reservedWords →
      keyword_from_text text p = .error (.unknownKeyword p a.text)) := by
  have hiff := keyword_of_text_isSome_iff a.text
  have hrw : keyword_from_text text p =
      (match keyword_of_text a.text with
       | some k => .ok { value := k, pos := p }
       | none => .error (.unknownKeyword p a.text)) := by
    unfold keyword_from_text
    rw [h]
  rw [hrw]
  cases hko : keyword_of_text a.text with
  | some k =>
    have hmem : a.text ∈ reservedWords := hiff.mp (by rw [hko]; rfl)
    exact ⟨⟨fun _ => hmem, fun _ => ⟨{ value := k, pos := p }, rfl⟩⟩,
           fun hn => absurd hmem hn⟩
  | none =>
    have hmem : a.text ∉ reservedWords := fun hm => by
      have hs := hiff.mpr hm
      rw [hko] at hs
      simp at hs
    refine ⟨⟨fun hex => ?_, fun hm => absurd hm hmem⟩, fun _ => rfl⟩
    obtain ⟨k, hk⟩ := hex
    exact Except.noConfusion hk

/-- Witness for C4: the bare atom `and` (whose text is the reserved word
itself) is recognized as a keyword. -/
theorem claim_C4_keyword_from_text_witness :
    ∃ k, keyword_from_text "and".toList Position.new = .ok k :=
  ((claim_C4_keyword_from_text "and".toList Position.new
      { value? := none, text := "and".toList, pos := Position.new } rfl).1).mpr
    (by decide)

/-! Helper lemmas about `first_index_of` and the string recognizers, used by
the claims about quotation parsing. -/

theorem first_index_of_take_succ (t : Char) :
    ∀ (l : List Char) (m : Nat), first_index_of t l = some m →
      l.take (m + 1) = l.take m ++ [t] := by
  intro l
  induction l with
  | nil => intro m h; exact Option.noConfusion h
  | cons c rest ih =>
    intro m h
    unfold first_index_of at h
    by_cases hc : c = t
    · rw [if_pos hc] at h
      simp only [Option.some.injEq] at h
      subst h
      simp [hc]
    · rw [if_neg hc] at h
      cases hf : first_index_of t rest with
      | none => simp only [hf] at h; exact Option.noConfusion h
      | some m' =>
        simp only [hf, Option.map_some'] at h
        simp only [Option.some.injEq] at h
        subst h
        simp [List.take_succ_cons, ih m' hf]

theorem first_index_of_min (t : Char) :
    ∀ (l : List Char) (m j : Nat), first_index_of t l = some m →
      (l.drop j).head? = some t → m ≤ j := by
  intro l
  induction l with
  | nil => intro m j h _; exact Option.noConfusion h
  | cons c rest ih =>
    intro m j h hj
    unfold first_index_of at h
    by_cases hc : c = t
    · rw [if_pos hc] at h
      simp only [Option.some.injEq] at h
      omega
    · rw [if_neg hc] at h
      cases hf : first_index_of t rest with
      | none => simp only [hf] at h; exact Option.noConfusion h
      | some m' =>
        simp only [hf, Option.map_some', Option.some.injEq] at h
        cases j with
        | zero =>
          simp at hj
          exact absurd hj hc
        | succ j' =>
          have := ih m' j' hf (by simpa using hj)
          omega

/-- The index the owned quotation parser returns always points at an
occurrence of the terminator. -/
theorem parse_quotation_owned_go_term (pos : Position) (term : Char) :
    ∀ (fuel : Nat) (l : List Char) (i : Nat) (buf : List Char) (e : Nat),
      parse_quotation_owned_go pos term fuel l i = .ok (buf, e) →
      ∃ j, e = i + j ∧ (l.drop j).head? = some term := by
  intro fuel
  induction fuel with
  | zero => intro l i buf e h; exact Except.noConfusion h
  | succ f ih =>
    intro l i buf e h
    cases l with
    | nil => exact Except.noConfusion h
    | cons c rest =>
      unfold parse_quotation_owned_go at h
      by_cases hbs : c = '\\'
      · rw [if_pos hbs] at h
        cases hpe : parse_escaped_char (pos.step_by_width (1 + i)) rest with
        | error e' => simp only [hpe] at h; exact Except.noConfusion h
        | ok dk =>
          obtain ⟨d, k⟩ := dk
          simp only [hpe] at h
          cases hgo : parse_quotation_owned_go pos term f (rest.drop k) (i + 1 + k) with
          | error e' => simp only [hgo] at h; exact Except.noConfusion h
          | ok be =>
            obtain ⟨buf', e'⟩ := be
            simp only [hgo, Except.ok.injEq, Prod.mk.injEq] at h
            obtain ⟨-, he⟩ := h
            obtain ⟨j', hj1, hj2⟩ := ih _ _ _ _ hgo
            refine ⟨1 + (k + j'), by omega, ?_⟩
            have hdd : (c :: rest).drop (1 + (k + j')) = (rest.drop k).drop j' := by
              rw [show 1 + (k + j') = (k + j') + 1 from by omega]
              rw [List.drop_succ_cons]
              rw [List.drop_drop]
            rw [hdd]
            exact hj2
      · rw [if_neg hbs] at h
        by_cases ht : c = term
        · rw [if_pos ht] at h
          simp only [Except.ok.injEq, Prod.mk.injEq] at h
          obtain ⟨-, he⟩ := h
          exact ⟨0, by omega, by simpa using ht⟩
        · rw [if_neg ht] at h
          cases hgo : parse_quotation_owned_go pos term f rest (i + 1) with
          | error e' => simp only [hgo] at h; exact Except.noConfusion h
          | ok be =>
            obtain ⟨buf', e'⟩ := be
            simp only [hgo, Except.ok.injEq, Prod.mk.injEq] at h
            obtain ⟨-, he⟩ := h
            obtain ⟨j', hj1, hj2⟩ := ih _ _ _ _ hgo
            refine ⟨1 + j', by omega, ?_⟩
            rw [show 1 + j' = j' + 1 from by omega, List.drop_succ_cons]
            exact hj2

theorem tq_opening_line_pos (p : Position) :
    ∀ (l : List Char) (k : Nat), tq_opening_line p l = .ok k → 1 ≤ k := by
  intro l
  induction l with
  | nil => intro k h; exact Except.noConfusion h
  | cons c rest ih =>
    intro k h
    unfold tq_opening_line at h
    by_cases h1 : c = '\n'
    · rw [if_pos h1] at h
      injection h with h
      omega
    · rw [if_neg h1] at h
      by_cases h2 : is_ascii_whitespace c = true
      · rw [if_pos h2] at h
        cases hr : tq_opening_line p rest with
        | error e => rw [hr] at h; exact Except.noConfusion h
        | ok n =>
          rw [hr] at h
          injection h with h
          have := ih n hr
          omega
      · rw [if_neg h2] at h
        exact Except.noConfusion h

theorem tq_scan_endLineEnd_mono (qc : Nat) :
    ∀ (l : List Char) (st : TqScanState) (n : Nat),
      n ≤ st.endLineEnd → n ≤ (tq_scan qc l st).endLineEnd := by
  intro l
  induction l with
  | nil => intro st n h; simpa [tq_scan] using h
  | cons c rest ih =>
    intro st n h
    unfold tq_scan
    by_cases h1 : c = '\n'
    · rw [if_pos h1]
      exact ih _ _ (by show n ≤ st.endLineEnd + 1; omega)
    · rw [if_neg h1]
      by_cases h2 : is_ascii_whitespace c = true
      · rw [if_pos h2]
        exact ih _ _ (by show n ≤ st.endLineEnd + 1; omega)
      · rw [if_neg h2]
        by_cases h3 : st.maybeEndLine = true ∧ c = '"'
        · rw [if_pos h3]
          by_cases h4 : st.remainingQuotes - 1 = 0
          · rw [if_pos h4]
            show n ≤ st.endLineEnd + 1
            omega
          · rw [if_neg h4]
            exact ih _ _ (by show n ≤ st.endLineEnd + 1; omega)
        · rw [if_neg h3]
          exact ih _ _ (by show n ≤ st.endLineEnd + 1; omega)

theorem takeWhile_quotes_of_take3 (text : List Char)
    (h : text.take 3 = ['"', '"', '"']) :
    3 ≤ (text.takeWhile (· = '"')).length := by
  rcases text with _ | ⟨a, _ | ⟨b, _ | ⟨c, r⟩⟩⟩ <;> simp_all [List.takeWhile_cons]

theorem parse_triple_quoted_end_ge (text : List Char) (p : Position)
    (v : CowStr) (e : Nat) (h : parse_triple_quoted text p = .ok (v, e)) :
    (text.takeWhile (· = '"')).length + 1 ≤ e := by
  unfold parse_triple_quoted at h
  simp only at h
  cases hop : tq_opening_line p (text.drop (text.takeWhile (· = '"')).length) with
  | error e' => rw [hop] at h; exact Except.noConfusion h
  | ok k =>
    simp only [hop] at h
    have hk := tq_opening_line_pos p _ _ hop
    have hmono := tq_scan_endLineEnd_mono (text.takeWhile (· = '"')).length
      (text.drop ((text.takeWhile (· = '"')).length + k))
      { indent := 0, maybeEndLine := true,
        remainingQuotes := (text.takeWhile (· = '"')).length,
        endLineStart := (text.takeWhile (· = '"')).length + k,
        endLineEnd := (text.takeWhile (· = '"')).length + k }
      ((text.takeWhile (· = '"')).length + k) (le_refl _)
    set st := tq_scan (text.takeWhile (· = '"')).length
      (text.drop ((text.takeWhile (· = '"')).length + k))
      { indent := 0, maybeEndLine := true,
        remainingQuotes := (text.takeWhile (· = '"')).length,
        endLineStart := (text.takeWhile (· = '"')).length + k,
        endLineEnd := (text.takeWhile (· = '"')).length + k } with hst
    by_cases h0 : st.remainingQuotes ≠ 0
    · rw [if_pos h0] at h
      exact Except.noConfusion h
    · rw [if_neg h0] at h
      by_cases h1 : st.indent = 0
      · rw [if_pos h1] at h
        injection h with h
        have he : e = st.endLineEnd := by cases h; rfl
        omega
      · rw [if_neg h1] at h
        by_cases hpan : st.endLineStart - 1 < (text.takeWhile (· = '"')).length + k
        · rw [if_pos hpan] at h
          exact Except.noConfusion h
        · rw [if_neg hpan] at h
          cases hlv : tq_lines_value p st.indent
              (rustLines ((text.take (st.endLineStart - 1)).drop
                ((text.takeWhile (· = '"')).length + k))) with
          | error e' => rw [hlv] at h; exact Except.noConfusion h
          | ok vv =>
            rw [hlv] at h
            injection h with h
            have he : e = st.endLineEnd := by cases h; rfl
            omega

/-- C9 (amended): for a Char token whose text contains no backslash the value
is the single code point after the `$`; for a String token whose text contains
no backslash and is NOT triple-quoted (its text does not open with `"""`) the
value is the text between the two quote delimiters.  (A triple-quoted token
always stores an owned, indentation-processed value, so the claim fails
there — see the counterexample.) -/
theorem claim_C9_no_escape_value :
    (∀ (text : List Char) (p : Position) (t : CharToken),
        char_from_text text p = .ok t → '\\' ∉ t.text →
        ∃ c, t.text = ['$', c] ∧ t.value = c) ∧
    (∀ (text : List Char) (p : Position) (t : StringToken),
        string_from_text text p = .ok t → '\\' ∉ t.text →
        t.text.take 3 ≠ ['"', '"', '"'] →
        t.value = (t.text.drop 1).dropLast) := by
  constructor
  · intro text p t h hnb
    rcases text with _ | ⟨c0, _ | ⟨c1, rest⟩⟩
    · exact Except.noConfusion h
    · exact Except.noConfusion h
    · unfold char_from_text at h
      simp only [] at h
      by_cases h0 : c0 = '$'
      · rw [if_pos h0] at h
        by_cases h1 : c1 = '\\'
        · rw [if_pos h1] at h
          cases hpe : parse_escaped_char p rest with
          | error e => rw [hpe] at h; exact Except.noConfusion h
          | ok vk =>
            obtain ⟨v, k⟩ := vk
            rw [hpe] at h
            injection h with h
            exfalso
            apply hnb
            rw [← h]
            subst h0
            subst h1
            rw [show (2 + k) = (k + 1) + 1 from by omega]
            simp [List.take_succ_cons]
        · rw [if_neg h1] at h
          injection h with h
          subst h
          exact ⟨c1, rfl, rfl⟩
      · rw [if_neg h0] at h
        exact Except.noConfusion h
  · intro text p t h hnb h3
    unfold string_from_text at h
    by_cases hemp : text = []
    · rw [if_pos hemp] at h
      exact Except.noConfusion h
    · rw [if_neg hemp] at h
      cases hrec : string_recognize text p with
      | error e => simp only [hrec] at h; exact Except.noConfusion h
      | ok ve =>
        obtain ⟨v, e⟩ := ve
        simp only [hrec] at h
        by_cases hadj : (text.drop e).head? = some '"'
        · rw [if_pos hadj] at h
          exact Except.noConfusion h
        · rw [if_neg hadj] at h
          injection h with h
          unfold string_recognize at hrec
          by_cases hd3 : text.take 3 = ['"', '"', '"']
          · exfalso
            rw [if_pos hd3] at hrec
            have hge := parse_triple_quoted_end_ge text p v e hrec
            have hq3 := takeWhile_quotes_of_take3 text hd3
            have he3 : 3 ≤ e := by omega
            apply h3
            rw [← h]
            show ((text.take e).take 3) = _
            rw [List.take_take, min_eq_left he3]
            exact hd3
          · rw [if_neg hd3] at hrec
            by_cases hd1 : text.take 1 = ['"']
            · rw [if_pos hd1] at hrec
              cases hpq : parse_quotation p (text.drop 1) '"' with
              | error e' => simp only [hpq] at hrec; exact Except.noConfusion hrec
              | ok wm =>
                obtain ⟨w, m⟩ := wm
                simp only [hpq, Except.ok.injEq, Prod.mk.injEq] at hrec
                obtain ⟨hw, he⟩ := hrec
                subst hw
                unfold parse_quotation at hpq
                cases hfio : first_index_of '"' (text.drop 1) with
                | none => simp only [hfio] at hpq; exact Except.noConfusion hpq
                | some m0 =>
                  simp only [hfio] at hpq
                  by_cases hbs : '\\' ∈ (text.drop 1).take m0
                  · -- owned path: the backslash lies inside the token text
                    exfalso
                    rw [if_pos hbs] at hpq
                    cases hgo : parse_quotation_owned p (text.drop 1) '"' with
                    | error e' => simp only [hgo] at hpq; exact Except.noConfusion hpq
                    | ok sm =>
                      obtain ⟨s, m'⟩ := sm
                      simp only [hgo, Except.ok.injEq, Prod.mk.injEq] at hpq
                      obtain ⟨-, hm⟩ := hpq
                      obtain ⟨j, hj1, hj2⟩ :=
                        parse_quotation_owned_go_term p '"' _ _ _ _ _ hgo
                      have hm0j : m0 ≤ j := first_index_of_min '"' _ _ _ hfio hj2
                      apply hnb
                      rw [← h]
                      -- t.text = text.take (m + 2) ⊇ (text.drop 1).take m0
                      have hmem : '\\' ∈ ((text.drop 1).take (m + 1)) := by
                        have : (text.drop 1).take m0 =
                            ((text.drop 1).take (m + 1)).take m0 := by
                          rw [List.take_take, min_eq_left (by omega)]
                        rw [this] at hbs
                        exact List.take_subset _ _ hbs
                      rcases htext : text with _ | ⟨head, tail⟩
                      · exact absurd htext hemp
                      · subst htext
                        have hhead : head = '"' := by simpa using hd1
                        rw [← he]
                        rw [show m + 2 = (m + 1) + 1 from by omega]
                        rw [List.take_succ_cons]
                        exact List.mem_cons_of_mem _ (by simpa using hmem)
                  · -- borrowed path: no decoded value is stored
                    rw [if_neg hbs] at hpq
                    simp only [Except.ok.injEq, Prod.mk.injEq] at hpq
                    obtain ⟨hv, -⟩ := hpq
                    rw [← h, ← hv]
                    rfl
            · rw [if_neg hd1] at hrec
              exact Except.noConfusion hrec

/-- Witness for C9: the Char token of `$a` and the String token of `"ab"`. -/
theorem claim_C9_no_escape_value_witness :
    (∃ c, (['$', 'a'] : List Char) = ['$', c] ∧
      (CharToken.mk 'a' ['$', 'a'] Position.new).value = c) ∧
    (StringToken.mk none "\"ab\"".toList Position.new).value =
      (("\"ab\"".toList.drop 1).dropLast) :=
  ⟨claim_C9_no_escape_value.1 "$a".toList Position.new
      { value := 'a', text := ['$', 'a'], pos := Position.new } rfl (by decide),
   claim_C9_no_escape_value.2 "\"ab\"".toList Position.new
      { value? := none, text := "\"ab\"".toList, pos := Position.new } rfl
      (by decide) (by decide)⟩

/-! Lemmas for the atom round-trip (C10). -/

theorem escape_atom_id :
    ∀ v : List Char, '\'' ∉ v → '\\' ∉ v → escape_atom v = v := by
  intro v
  induction v with
  | nil => intro _ _; rfl
  | cons c t ih =>
    intro hq hb
    have hcq : c ≠ '\'' := fun h => hq (h ▸ List.mem_cons_self c t)
    have hcb : c ≠ '\\' := fun h => hb (h ▸ List.mem_cons_self c t)
    unfold escape_atom escape_atom_char
    rw [if_neg hcq, if_neg hcb]
    rw [ih (fun h => hq (List.mem_cons_of_mem c h)) (fun h => hb (List.mem_cons_of_mem c h))]
    rfl

theorem first_index_of_append_self (t : Char) :
    ∀ l : List Char, t ∉ l → first_index_of t (l ++ [t]) = some l.length := by
  intro l
  induction l with
  | nil => intro _; simp [first_index_of]
  | cons c rest ih =>
    intro hn
    have hc : c ≠ t := fun h => hn (h ▸ List.mem_cons_self c rest)
    rw [List.cons_append]
    unfold first_index_of
    rw [if_neg hc, ih (fun h => hn (List.mem_cons_of_mem c h))]
    simp

/-- Wherever the first quote lies in the encoding of a value that contains a
quote or a backslash, a backslash occurs before it. -/
theorem escape_atom_backslash_before_quote :
    ∀ (v : List Char) (m : Nat), ('\'' ∈ v ∨ '\\' ∈ v) →
      first_index_of '\'' (escape_atom v ++ ['\'']) = some m →
      '\\' ∈ (escape_atom v ++ ['\'']).take m := by
  intro v
  induction v with
  | nil => intro m h _; simp at h
  | cons c t ih =>
    intro m hmem h
    by_cases hq : c = '\''
    · subst hq
      have he : escape_atom ('\'' :: t) ++ ['\''] =
          '\\' :: '\'' :: (escape_atom t ++ ['\'']) := by
        simp [escape_atom, escape_atom_char]
      rw [he] at h
      simp +decide only [first_index_of, ite_true, ite_false, Option.map_some',
        Option.some.injEq] at h
      subst h
      rw [he]
      simp
    · by_cases hb : c = '\\'
      · subst hb
        have he : escape_atom ('\\' :: t) ++ ['\''] =
            '\\' :: '\\' :: (escape_atom t ++ ['\'']) := by
          simp [escape_atom, escape_atom_char]
        rw [he] at h
        simp +decide only [first_index_of, ite_true, ite_false] at h
        cases hf : first_index_of '\'' (escape_atom t ++ ['\'']) with
        | none => rw [hf] at h; simp at h
        | some m' =>
          rw [hf] at h
          simp only [Option.map_some', Option.some.injEq] at h
          subst h
          rw [he]
          simp
      · have he : escape_atom (c :: t) ++ ['\''] =
            c :: (escape_atom t ++ ['\'']) := by
          simp [escape_atom, escape_atom_char, hq, hb]
        rw [he] at h
        unfold first_index_of at h
        rw [if_neg hq] at h
        cases hf : first_index_of '\'' (escape_atom t ++ ['\'']) with
        | none => rw [hf] at h; simp at h
        | some m' =>
          rw [hf] at h
          simp only [Option.map_some', Option.some.injEq] at h
          subst h
          have hmem' : '\'' ∈ t ∨ '\\' ∈ t := by
            rcases hmem with h1 | h1
            · rcases List.mem_cons.mp h1 with h2 | h2
              · exact absurd h2.symm hq
              · exact Or.inl h2
            · rcases List.mem_cons.mp h1 with h2 | h2
              · exact absurd h2.symm hb
              · exact Or.inr h2
          have := ih m' hmem' hf
          rw [he]
          rw [List.take_succ_cons]
          exact List.mem_cons_of_mem c this

theorem first_index_of_none (t : Char) :
    ∀ l : List Char, first_index_of t l = none → t ∉ l := by
  intro l
  induction l with
  | nil => intro _ h; simp at h
  | cons c rest ih =>
    intro h hmem
    unfold first_index_of at h
    by_cases hc : c = t
    · rw [if_pos hc] at h
      exact Option.noConfusion h
    · rw [if_neg hc] at h
      cases hf : first_index_of t rest with
      | some m => rw [hf] at h; simp at h
      | none =>
        rcases List.mem_cons.mp hmem with h1 | h1
        · exact hc h1.symm
        · exact ih hf h1

/-- Decoding the escaped form of `v` with the owned quotation parser yields
`v` back, stopping at the terminator that follows the encoding. -/
theorem parse_quotation_owned_go_escape (p : Position) :
    ∀ (v r : List Char) (i fuel : Nat),
      (escape_atom v).length + 1 ≤ fuel →
      parse_quotation_owned_go p '\'' fuel (escape_atom v ++ '\'' :: r) i =
        .ok (v, i + (escape_atom v).length) := by
  intro v
  induction v with
  | nil =>
    intro r i fuel hf
    cases fuel with
    | zero => simp [escape_atom] at hf
    | succ f =>
      show parse_quotation_owned_go p '\'' (f + 1) ('\'' :: r) i = .ok ([], i + 0)
      unfold parse_quotation_owned_go
      rw [if_neg (by decide), if_pos rfl]
      simp
  | cons c t ih =>
    intro r i fuel hf
    by_cases hq : c = '\''
    · subst hq
      have he : escape_atom ('\'' :: t) ++ '\'' :: r =
          '\\' :: '\'' :: (escape_atom t ++ '\'' :: r) := by
        simp [escape_atom, escape_atom_char]
      have hl : (escape_atom ('\'' :: t)).length = (escape_atom t).length + 2 := by
        simp [escape_atom, escape_atom_char]
      rw [hl] at hf
      cases fuel with
      | zero => omega
      | succ f =>
        rw [he]
        unfold parse_quotation_owned_go
        rw [if_pos rfl]
        rw [show parse_escaped_char (p.step_by_width (1 + i))
              ('\'' :: (escape_atom t ++ '\'' :: r)) = .ok ('\'', 1) from rfl]
        simp only [List.drop_succ_cons, List.drop_zero]
        rw [ih r (i + 1 + 1) f (by omega)]
        simp only [Except.ok.injEq, Prod.mk.injEq]
        exact ⟨by trivial, by rw [hl]; omega⟩
    · by_cases hb : c = '\\'
      · subst hb
        have he : escape_atom ('\\' :: t) ++ '\'' :: r =
            '\\' :: '\\' :: (escape_atom t ++ '\'' :: r) := by
          simp [escape_atom, escape_atom_char]
        have hl : (escape_atom ('\\' :: t)).length = (escape_atom t).length + 2 := by
          simp [escape_atom, escape_atom_char]
        rw [hl] at hf
        cases fuel with
        | zero => omega
        | succ f =>
          rw [he]
          unfold parse_quotation_owned_go
          rw [if_pos rfl]
          rw [show parse_escaped_char (p.step_by_width (1 + i))
                ('\\' :: (escape_atom t ++ '\'' :: r)) = .ok ('\\', 1) from rfl]
          simp only [List.drop_succ_cons, List.drop_zero]
          rw [ih r (i + 1 + 1) f (by omega)]
          simp only [Except.ok.injEq, Prod.mk.injEq]
          exact ⟨by trivial, by rw [hl]; omega⟩
      · have he : escape_atom (c :: t) ++ '\'' :: r =
            c :: (escape_atom t ++ '\'' :: r) := by
          simp [escape_atom, escape_atom_char, hq, hb]
        have hl : (escape_atom (c :: t)).length = (escape_atom t).length + 1 := by
          simp [escape_atom, escape_atom_char, hq, hb]
        rw [hl] at hf
        cases fuel with
        | zero => omega
        | succ f =>
          rw [he]
          unfold parse_quotation_owned_go
          rw [if_neg hb, if_neg hq]
          rw [ih r (i + 1) f (by omega)]
          simp only [Except.ok.injEq, Prod.mk.injEq]
          exact ⟨by trivial, by rw [hl]; omega⟩

/-- `parse_quotation` on the single-quote encoding of any value decodes it
back, consuming exactly the encoding. -/
theorem parse_quotation_escape (p : Position) (v : List Char) :
    ∃ cow, parse_quotation p (escape_atom v ++ ['\'']) '\'' =
      .ok (cow, (escape_atom v).length) ∧ cow.chars = v := by
  by_cases hmem : '\'' ∈ v ∨ '\\' ∈ v
  · refine ⟨.owned v, ?_, rfl⟩
    unfold parse_quotation
    cases hfio : first_index_of '\'' (escape_atom v ++ ['\'']) with
    | none =>
      exfalso
      exact first_index_of_none '\'' _ hfio
        (List.mem_append_right _ (List.mem_singleton.mpr rfl))
    | some m =>
      simp only [hfio]
      rw [if_pos (escape_atom_backslash_before_quote v m hmem hfio)]
      unfold parse_quotation_owned
      rw [show (escape_atom v ++ ['\'']).length = (escape_atom v).length + 1 by simp]
      rw [show (escape_atom v ++ ['\''] : List Char) = escape_atom v ++ '\'' :: [] from rfl]
      rw [parse_quotation_owned_go_escape p v [] 0 ((escape_atom v).length + 1) (le_refl _)]
      simp
  · push_neg at hmem
    obtain ⟨hq, hb⟩ := hmem
    refine ⟨.borrowed v, ?_, rfl⟩
    unfold parse_quotation
    have hid := escape_atom_id v hq hb
    rw [hid]
    have hfio := first_index_of_append_self '\'' v hq
    simp only [hfio]
    rw [List.take_left]
    rw [if_neg hb]

/-- C10: building an atom token from a value and re-reading its text restores
the value: `from_value` escapes only `'` and `\` and wraps the result in
single quotes, which `from_text`'s quotation parsing decodes back. -/
theorem claim_C10_atom_roundtrip (v : List Char) (p q : Position) :
    (atom_from_value v p).value = v ∧
    ∃ t, atom_from_text (atom_from_value v p).text q = .ok t ∧ t.value = v := by
  refine ⟨rfl, ?_⟩
  obtain ⟨cow, hpq, hchars⟩ := parse_quotation_escape q v
  show ∃ t, atom_from_text ('\'' :: (escape_atom v ++ ['\''])) q = .ok t ∧ t.value = v
  unfold atom_from_text
  simp only [if_true]
  simp only [hpq]
  refine ⟨_, rfl, ?_⟩
  simp [AtomToken.value, hchars]

/-! Lemmas for C7: no component of string recognition other than the final
adjacency check ever produces `AdjacentStringLiterals`. -/

theorem escape_caret_no_adjacent (pos : Position) (l : List Char) (e : Error)
    (h : escape_caret pos l = .error e) :
    ∀ q, e ≠ .adjacentStringLiterals q := by
  intro q
  cases l with
  | nil =>
    unfold escape_caret at h
    simp only [Except.error.injEq] at h
    subst h
    exact fun hc => Error.noConfusion hc
  | cons c2 rest => exact Except.noConfusion h

theorem escape_hex_no_adjacent (pos : Position) (l : List Char) (e : Error)
    (h : escape_hex pos l = .error e) :
    ∀ q, e ≠ .adjacentStringLiterals q := by
  intro q
  cases l with
  | nil =>
    unfold escape_hex at h
    simp only [Except.error.injEq] at h
    subst h
    exact fun hc => Error.noConfusion hc
  | cons c2 rest2 =>
    unfold escape_hex at h
    simp only [] at h
    by_cases hb : c2 = '{'
    · rw [if_pos hb] at h
      cases hcv : (rustHexU32? (rest2.takeWhile (· ≠ '}'))).bind charFromU32? with
      | none =>
        simp only [hcv, Except.error.injEq] at h
        subst h
        exact fun hc => Error.noConfusion hc
      | some ch =>
        simp only [hcv] at h
        exact Except.noConfusion h
    · rw [if_neg hb] at h
      cases rest2 with
      | nil =>
        simp only [Except.error.injEq] at h
        subst h
        exact fun hc => Error.noConfusion hc
      | cons c3 t =>
        cases hcv : (rustHexU32? [c2, c3]).bind charFromU32? with
        | none =>
          simp only [hcv, Except.error.injEq] at h
          subst h
          exact fun hc => Error.noConfusion hc
        | some ch =>
          simp only [hcv] at h
          exact Except.noConfusion h

theorem escape_octal_no_adjacent (pos : Position) (c : Char) (l : List Char) (e : Error)
    (h : escape_octal pos c l = .error e) :
    ∀ q, e ≠ .adjacentStringLiterals q := by
  intro q
  cases l with
  | nil =>
    unfold escape_octal at h
    cases hcv : charFromU32? (c.toNat - '0'.toNat) with
    | none =>
      simp only [hcv, Except.error.injEq] at h
      subst h
      exact fun hc => Error.noConfusion hc
    | some ch =>
      simp only [hcv] at h
      exact Except.noConfusion h
  | cons d1 r1 =>
    unfold escape_octal at h
    simp only [] at h
    by_cases h1 : isOctalDigit d1 = true
    · rw [if_pos h1] at h
      cases r1 with
      | nil =>
        cases hcv : charFromU32? ((c.toNat - '0'.toNat) * 8 + (c.toNat - '0'.toNat)) with
        | none =>
          simp only [hcv, Except.error.injEq] at h
          subst h
          exact fun hc => Error.noConfusion hc
        | some ch =>
          simp only [hcv] at h
          exact Except.noConfusion h
      | cons d2 r2 =>
        simp only [] at h
        by_cases h2 : isOctalDigit d2 = true
        · rw [if_pos h2] at h
          cases hcv : charFromU32?
              (((c.toNat - '0'.toNat) * 8 + (c.toNat - '0'.toNat)) * 8
                + (c.toNat - '0'.toNat)) with
          | none =>
            simp only [hcv, Except.error.injEq] at h
            subst h
            exact fun hc => Error.noConfusion hc
          | some ch =>
            simp only [hcv] at h
            exact Except.noConfusion h
        · rw [if_neg h2] at h
          cases hcv : charFromU32? ((c.toNat - '0'.toNat) * 8 + (c.toNat - '0'.toNat)) with
          | none =>
            simp only [hcv, Except.error.injEq] at h
            subst h
            exact fun hc => Error.noConfusion hc
          | some ch =>
            simp only [hcv] at h
            exact Except.noConfusion h
    · rw [if_neg h1] at h
      cases hcv : charFromU32? (c.toNat - '0'.toNat) with
      | none =>
        simp only [hcv, Except.error.injEq] at h
        subst h
        exact fun hc => Error.noConfusion hc
      | some ch =>
        simp only [hcv] at h
        exact Except.noConfusion h

theorem parse_escaped_char_no_adjacent (pos : Position) (l : List Char) (e : Error)
    (h : parse_escaped_char pos l = .error e) :
    ∀ q, e ≠ .adjacentStringLiterals q := by
  intro q
  cases l with
  | nil =>
    unfold parse_escaped_char at h
    simp only [Except.error.injEq] at h
    subst h
    exact fun hc => Error.noConfusion hc
  | cons c rest =>
    replace h : escape_char_body pos c rest = .error e := h
    unfold escape_char_body at h
    by_cases h1 : c = 'b'
    · rw [if_pos h1] at h
      exact Except.noConfusion h
    · rw [if_neg h1] at h
      by_cases h2 : c = 'd'
      · rw [if_pos h2] at h
        exact Except.noConfusion h
      · rw [if_neg h2] at h
        by_cases h3 : c = 'e'
        · rw [if_pos h3] at h
          exact Except.noConfusion h
        · rw [if_neg h3] at h
          by_cases h4 : c = 'f'
          · rw [if_pos h4] at h
            exact Except.noConfusion h
          · rw [if_neg h4] at h
            by_cases h5 : c = 'n'
            · rw [if_pos h5] at h
              exact Except.noConfusion h
            · rw [if_neg h5] at h
              by_cases h6 : c = 'r'
              · rw [if_pos h6] at h
                exact Except.noConfusion h
              · rw [if_neg h6] at h
                by_cases h7 : c = 's'
                · rw [if_pos h7] at h
                  exact Except.noConfusion h
                · rw [if_neg h7] at h
                  by_cases h8 : c = 't'
                  · rw [if_pos h8] at h
                    exact Except.noConfusion h
                  · rw [if_neg h8] at h
                    by_cases h9 : c = 'v'
                    · rw [if_pos h9] at h
                      exact Except.noConfusion h
                    · rw [if_neg h9] at h
                      by_cases h10 : c = '^'
                      · rw [if_pos h10] at h
                        exact escape_caret_no_adjacent pos rest e h q
                      · rw [if_neg h10] at h
                        by_cases h11 : c = 'x'
                        · rw [if_pos h11] at h
                          exact escape_hex_no_adjacent pos rest e h q
                        · rw [if_neg h11] at h
                          by_cases h12 : isOctalDigit c = true
                          · rw [if_pos h12] at h
                            exact escape_octal_no_adjacent pos c rest e h q
                          · rw [if_neg h12] at h
                            exact Except.noConfusion h

theorem parse_quotation_owned_go_no_adjacent (pos : Position) (term : Char) :
    ∀ (fuel : Nat) (l : List Char) (i : Nat) (e : Error),
      parse_quotation_owned_go pos term fuel l i = .error e →
      ∀ q, e ≠ .adjacentStringLiterals q := by
  intro fuel
  induction fuel with
  | zero =>
    intro l i e h q
    unfold parse_quotation_owned_go at h
    simp only [Except.error.injEq] at h
    subst h
    exact fun hc => Error.noConfusion hc
  | succ f ih =>
    intro l i e h q
    cases l with
    | nil =>
      unfold parse_quotation_owned_go at h
      simp only [Except.error.injEq] at h
      subst h
      exact fun hc => Error.noConfusion hc
    | cons c rest =>
      unfold parse_quotation_owned_go at h
      by_cases hbs : c = '\\'
      · rw [if_pos hbs] at h
        cases hpe : parse_escaped_char (pos.step_by_width (1 + i)) rest with
        | error e' =>
          simp only [hpe, Except.error.injEq] at h
          subst h
          exact parse_escaped_char_no_adjacent _ _ _ hpe q
        | ok dk =>
          obtain ⟨d, k⟩ := dk
          simp only [hpe] at h
          cases hgo : parse_quotation_owned_go pos term f (rest.drop k) (i + 1 + k) with
          | error e' =>
            simp only [hgo, Except.error.injEq] at h
            subst h
            exact ih _ _ _ hgo q
          | ok be =>
            obtain ⟨b1, e1⟩ := be
            simp only [hgo] at h
            exact Except.noConfusion h
      · rw [if_neg hbs] at h
        by_cases ht : c = term
        · rw [if_pos ht] at h
          exact Except.noConfusion h
        · rw [if_neg ht] at h
          cases hgo : parse_quotation_owned_go pos term f rest (i + 1) with
          | error e' =>
            simp only [hgo, Except.error.injEq] at h
            subst h
            exact ih _ _ _ hgo q
          | ok be =>
            obtain ⟨b1, e1⟩ := be
            simp only [hgo] at h
            exact Except.noConfusion h

theorem parse_quotation_no_adjacent (pos : Position) (input : List Char) (term : Char)
    (e : Error) (h : parse_quotation pos input term = .error e) :
    ∀ q, e ≠ .adjacentStringLiterals q := by
  intro q
  unfold parse_quotation at h
  cases hfio : first_index_of term input with
  | none =>
    simp only [hfio, Except.error.injEq] at h
    subst h
    exact fun hc => Error.noConfusion hc
  | some m =>
    simp only [hfio] at h
    by_cases hbs : '\\' ∈ input.take m
    · rw [if_pos hbs] at h
      cases hgo : parse_quotation_owned pos input term with
      | error e' =>
        simp only [hgo, Except.error.injEq] at h
        subst h
        unfold parse_quotation_owned at hgo
        exact parse_quotation_owned_go_no_adjacent pos term _ _ _ _ hgo q
      | ok sm =>
        obtain ⟨s, m'⟩ := sm
        simp only [hgo] at h
        exact Except.noConfusion h
    · rw [if_neg hbs] at h
      exact Except.noConfusion h

theorem tq_opening_line_no_adjacent (p : Position) :
    ∀ (l : List Char) (e : Error), tq_opening_line p l = .error e →
      ∀ q, e ≠ .adjacentStringLiterals q := by
  intro l
  induction l with
  | nil =>
    intro e h q
    unfold tq_opening_line at h
    simp only [Except.error.injEq] at h
    subst h
    exact fun hc => Error.noConfusion hc
  | cons c rest ih =>
    intro e h q
    unfold tq_opening_line at h
    by_cases h1 : c = '\n'
    · rw [if_pos h1] at h
      exact Except.noConfusion h
    · rw [if_neg h1] at h
      by_cases h2 : is_ascii_whitespace c = true
      · rw [if_pos h2] at h
        cases hr : tq_opening_line p rest with
        | error e' =>
          simp only [hr, Except.error.injEq] at h
          subst h
          exact ih _ hr q
        | ok n =>
          simp only [hr] at h
          exact Except.noConfusion h
      · rw [if_neg h2] at h
        simp only [Except.error.injEq] at h
        subst h
        exact fun hc => Error.noConfusion hc

theorem tq_strip_go_no_adjacent (pos : Position) (indent : Nat) :
    ∀ (l : List Char) (i : Nat) (e : Error), tq_strip_go pos indent l i = .error e →
      ∀ q, e ≠ .adjacentStringLiterals q := by
  intro l
  induction l with
  | nil =>
    intro i e h q
    exact Except.noConfusion h
  | cons c rest ih =>
    intro i e h q
    unfold tq_strip_go at h
    by_cases h1 : i < indent
    · rw [if_pos h1] at h
      by_cases h2 : is_ascii_whitespace c = true
      · rw [if_pos h2] at h
        exact ih _ _ h q
      · rw [if_neg h2] at h
        simp only [Except.error.injEq] at h
        subst h
        exact fun hc => Error.noConfusion hc
    · rw [if_neg h1] at h
      cases hr : tq_strip_go pos indent rest (i + 1) with
      | error e' =>
        simp only [hr, Except.error.injEq] at h
        subst h
        exact ih _ _ hr q
      | ok v =>
        simp only [hr] at h
        exact Except.noConfusion h

theorem tq_line_value_no_adjacent (pos : Position) (indent : Nat) (line : List Char)
    (e : Error) (h : tq_line_value pos indent line = .error e) :
    ∀ q, e ≠ .adjacentStringLiterals q := by
  intro q
  unfold tq_line_value at h
  by_cases h1 : line = ['\n']
  · rw [if_pos h1] at h
    exact Except.noConfusion h
  · rw [if_neg h1] at h
    cases hs : tq_strip_go pos indent line 0 with
    | error e' =>
      simp only [hs, Except.error.injEq] at h
      subst h
      exact tq_strip_go_no_adjacent pos indent _ _ _ hs q
    | ok v =>
      simp only [hs] at h
      by_cases h2 : v = []
      · rw [if_pos h2] at h
        simp only [Except.error.injEq] at h
        subst h
        exact fun hc => Error.noConfusion hc
      · rw [if_neg h2] at h
        exact Except.noConfusion h

theorem tq_lines_value_no_adjacent (pos : Position) (indent : Nat) :
    ∀ (lines : List (List Char)) (e : Error),
      tq_lines_value pos indent lines = .error e →
      ∀ q, e ≠ .adjacentStringLiterals q := by
  intro lines
  induction lines with
  | nil =>
    intro e h q
    exact Except.noConfusion h
  | cons line rest ih =>
    intro e h q
    unfold tq_lines_value at h
    cases hl : tq_line_value pos indent line with
    | error e' =>
      simp only [hl, Except.error.injEq] at h
      subst h
      exact tq_line_value_no_adjacent pos indent _ _ hl q
    | ok v =>
      simp only [hl] at h
      cases hr : tq_lines_value pos indent rest with
      | error e' =>
        simp only [hr, Except.error.injEq] at h
        subst h
        exact ih _ hr q
      | ok vs =>
        simp only [hr] at h
        exact Except.noConfusion h

theorem parse_triple_quoted_no_adjacent (text : List Char) (p : Position)
    (e : Error) (h : parse_triple_quoted text p = .error e) :
    ∀ q, e ≠ .adjacentStringLiterals q := by
  intro q
  unfold parse_triple_quoted at h
  simp only at h
  cases hop : tq_opening_line p (text.drop (text.takeWhile (· = '"')).length) with
  | error e' =>
    simp only [hop, Except.error.injEq] at h
    subst h
    exact tq_opening_line_no_adjacent p _ _ hop q
  | ok k =>
    simp only [hop] at h
    set st := tq_scan (text.takeWhile (· = '"')).length
      (text.drop ((text.takeWhile (· = '"')).length + k))
      { indent := 0, maybeEndLine := true,
        remainingQuotes := (text.takeWhile (· = '"')).length,
        endLineStart := (text.takeWhile (· = '"')).length + k,
        endLineEnd := (text.takeWhile (· = '"')).length + k } with hst
    by_cases h0 : st.remainingQuotes ≠ 0
    · rw [if_pos h0] at h
      simp only [Except.error.injEq] at h
      subst h
      exact fun hc => Error.noConfusion hc
    · rw [if_neg h0] at h
      by_cases h1 : st.indent = 0
      · rw [if_pos h1] at h
        exact Except.noConfusion h
      · rw [if_neg h1] at h
        by_cases hpan : st.endLineStart - 1 < (text.takeWhile (· = '"')).length + k
        · rw [if_pos hpan] at h
          simp only [Except.error.injEq] at h
          subst h
          exact fun hc => Error.noConfusion hc
        · rw [if_neg hpan] at h
          cases hlv : tq_lines_value p st.indent
              (rustLines ((text.take (st.endLineStart - 1)).drop
                ((text.takeWhile (· = '"')).length + k))) with
          | error e' =>
            simp only [hlv, Except.error.injEq] at h
            subst h
            exact tq_lines_value_no_adjacent p _ _ _ hlv q
          | ok vv =>
            simp only [hlv] at h
            exact Except.noConfusion h

theorem string_recognize_no_adjacent (text : List Char) (p : Position)
    (e : Error) (h : string_recognize text p = .error e) :
    ∀ q, e ≠ .adjacentStringLiterals q := by
  intro q
  unfold string_recognize at h
  by_cases h3 : text.take 3 = ['"', '"', '"']
  · rw [if_pos h3] at h
    exact parse_triple_quoted_no_adjacent text p _ h q
  · rw [if_neg h3] at h
    by_cases h1 : text.take 1 = ['"']
    · rw [if_pos h1] at h
      cases hpq : parse_quotation p (text.drop 1) '"' with
      | error e' =>
        simp only [hpq, Except.error.injEq] at h
        subst h
        exact parse_quotation_no_adjacent p _ '"' _ hpq q
      | ok ve =>
        obtain ⟨v, m⟩ := ve
        simp only [hpq] at h
        exact Except.noConfusion h
    · rw [if_neg h1] at h
      simp only [Except.error.injEq] at h
      subst h
      exact fun hc => Error.noConfusion hc

/-- C7: `StringToken::from_text` fails with `AdjacentStringLiterals` exactly
when the underlying recognizer (single- or triple-quoted) succeeds on a
complete literal ending at `e` and the very next character of the input is
`"`; the error's position is the start position advanced over the literal's
text, i.e. the position immediately after the literal. -/
theorem claim_C7_adjacent_string_literals (text : List Char) (p p' : Position) :
    string_from_text text p = .error (.adjacentStringLiterals p') ↔
    (∃ v e, string_recognize text p = .ok (v, e) ∧
      (text.drop e).head? = some '"' ∧ p' = p.step_by_text (text.take e)) := by
  constructor
  · intro h
    unfold string_from_text at h
    by_cases hemp : text = []
    · rw [if_pos hemp] at h
      simp only [Except.error.injEq] at h
      exact absurd h (fun hc => Error.noConfusion hc)
    · rw [if_neg hemp] at h
      cases hrec : string_recognize text p with
      | error e0 =>
        simp only [hrec, Except.error.injEq] at h
        exact absurd h (string_recognize_no_adjacent text p e0 hrec p')
      | ok ve =>
        obtain ⟨v, e⟩ := ve
        simp only [hrec] at h
        by_cases hadj : (text.drop e).head? = some '"'
        · rw [if_pos hadj] at h
          simp only [Except.error.injEq, Error.adjacentStringLiterals.injEq] at h
          exact ⟨v, e, rfl, hadj, h.symm⟩
        · rw [if_neg hadj] at h
          exact Except.noConfusion h
  · rintro ⟨v, e, hrec, hadj, rfl⟩
    unfold string_from_text
    have hemp : text ≠ [] := by
      intro hnil
      subst hnil
      simp +decide [string_recognize] at hrec
    rw [if_neg hemp]
    simp only [hrec]
    rw [if_pos hadj]

/-- Witness for C7: `"a""b"` fails with `AdjacentStringLiterals` immediately
after the literal `"a"`. -/
theorem claim_C7_adjacent_string_literals_witness :
    string_from_text "\"a\"\"b\"".toList Position.new =
      .error (.adjacentStringLiterals
        (Position.new.step_by_text ("\"a\"\"b\"".toList.take 3))) :=
  (claim_C7_adjacent_string_literals "\"a\"\"b\"".toList Position.new _).mpr
    ⟨.borrowed ['a'], 3, rfl, rfl, rfl⟩

/-- C2: the octal branch of the escape decoder is greedy within the 1-3 digit
limit and stops at the first non-octal character, but the accumulated value is
NOT the base-8 number of the scanned digits: src/util.rs:102 re-adds the first
digit each round, so `\123` decodes to 73 (`'I'`), not `0o123 = 83` (`'S'`).
The consumption counts below witness the greedy 1-3 digit scan. -/
theorem claim_C2_octal_escape : ∀ p : Position,
    parse_escaped_char p ['1', '2', '3'] = .ok (Char.ofNat 73, 3) ∧
    parse_escaped_char p ['1', '2', '3', '4', '5'] = .ok (Char.ofNat 73, 3) ∧
    parse_escaped_char p ['1', '8'] = .ok (Char.ofNat 1, 1) ∧
    parse_escaped_char p ['1', '2', '8'] = .ok (Char.ofNat 9, 2) ∧
    Char.ofNat 73 ≠ Char.ofNat 0o123 := by
  intro p
  refine ⟨rfl, rfl, rfl, rfl, ?_⟩
  decide

end ErlTokenize

namespace ErlTokenize

/-! Lemmas for C6: the symbol tables. -/

theorem take_length_of_prefix {s l : List Char} (h : s <+: l) :
    l.take s.length = s := by
  obtain ⟨r, rfl⟩ := h
  exact List.take_left s r

theorem table3_lengths : ∀ s ∈ table3, s.1.length = 3 := by decide

theorem table2_lengths : ∀ s ∈ table2, s.1.length = 2 := by decide

theorem table1_lengths : ∀ s ∈ table1, s.1.length = 1 := by decide

theorem sym3_key : ∀ s ∈ table3, sym3 s.1 = some s.2 := by decide

theorem sym2_key : ∀ s ∈ table2, sym2 s.1 = some s.2 := by decide

theorem sym1_key : ∀ s ∈ table1, sym1 s.1 = some s.2 := by decide

theorem sym3_some {t : List Char} {v : Symbol} (h : sym3 t = some v) :
    ∃ s, s ∈ table3 ∧ s.1 = t ∧ s.2 = v := by
  unfold sym3 at h
  cases hf : table3.find? (fun kv => kv.1 == t) with
  | none => rw [hf] at h; exact Option.noConfusion h
  | some kv =>
    rw [hf] at h
    simp only [Option.map_some', Option.some.injEq] at h
    have hmem := List.mem_of_find?_eq_some hf
    have hkey := List.find?_some hf
    rw [beq_iff_eq] at hkey
    exact ⟨kv, hmem, hkey, h⟩

theorem sym2_some {t : List Char} {v : Symbol} (h : sym2 t = some v) :
    ∃ s, s ∈ table2 ∧ s.1 = t ∧ s.2 = v := by
  unfold sym2 at h
  cases hf : table2.find? (fun kv => kv.1 == t) with
  | none => rw [hf] at h; exact Option.noConfusion h
  | some kv =>
    rw [hf] at h
    simp only [Option.map_some', Option.some.injEq] at h
    have hmem := List.mem_of_find?_eq_some hf
    have hkey := List.find?_some hf
    rw [beq_iff_eq] at hkey
    exact ⟨kv, hmem, hkey, h⟩

theorem sym3_eq_none {l : List Char} (h : ∀ s ∈ table3, ¬ s.1 <+: l) :
    sym3 (l.take 3) = none := by
  cases hs : sym3 (l.take 3) with
  | none => rfl
  | some v =>
    exfalso
    obtain ⟨s, hmem, hkey, -⟩ := sym3_some hs
    exact h s hmem (hkey ▸ List.take_prefix 3 l)

theorem sym2_eq_none {l : List Char} (h : ∀ s ∈ table2, ¬ s.1 <+: l) :
    sym2 (l.take 2) = none := by
  cases hs : sym2 (l.take 2) with
  | none => rfl
  | some v =>
    exfalso
    obtain ⟨s, hmem, hkey, -⟩ := sym2_some hs
    exact h s hmem (hkey ▸ List.take_prefix 2 l)

/-- C6: `SymbolToken::from_text` is a greedy longest-match over the three
tables, tried in descending spelling length: a 3-character spelling prefixing
the input wins outright; a 2-character spelling wins when no 3-character one
prefixes the input; a 1-character spelling wins when no longer one does; and
consequently whenever a spelling of length 2 or 3 prefixes the input — in
particular one extending a recognized shorter symbol — the recognized symbol's
spelling is at least that long (the longer match wins, never the shorter). -/
theorem claim_C6_symbol_longest_match (l : List Char) (p : Position) :
    (∀ s ∈ table3, s.1 <+: l →
      symbol_from_text l p = .ok { value := s.2, pos := p }) ∧
    (∀ s ∈ table2, s.1 <+: l → (∀ s3 ∈ table3, ¬ s3.1 <+: l) →
      symbol_from_text l p = .ok { value := s.2, pos := p }) ∧
    (∀ s ∈ table1, s.1 <+: l → (∀ s3 ∈ table3, ¬ s3.1 <+: l) →
      (∀ s2 ∈ table2, ¬ s2.1 <+: l) →
      symbol_from_text l p = .ok { value := s.2, pos := p }) ∧
    (∀ s ∈ table3 ++ table2, s.1 <+: l →
      ∃ s' t, s' ∈ table3 ++ table2 ∧ symbol_from_text l p = .ok t ∧
        t.value = s'.2 ∧ s'.1 <+: l ∧ s.1.length ≤ s'.1.length) := by
  have P1 : ∀ s ∈ table3, s.1 <+: l →
      symbol_from_text l p = .ok { value := s.2, pos := p } := by
    intro s hmem hpre
    have ht : l.take 3 = s.1 := by
      rw [← table3_lengths s hmem]
      exact take_length_of_prefix hpre
    unfold symbol_from_text
    simp only [ht, sym3_key s hmem]
  have P2 : ∀ s ∈ table2, s.1 <+: l → (∀ s3 ∈ table3, ¬ s3.1 <+: l) →
      symbol_from_text l p = .ok { value := s.2, pos := p } := by
    intro s hmem hpre h3
    have ht : l.take 2 = s.1 := by
      rw [← table2_lengths s hmem]
      exact take_length_of_prefix hpre
    unfold symbol_from_text
    simp only [sym3_eq_none h3, ht, sym2_key s hmem]
  have P3 : ∀ s ∈ table1, s.1 <+: l → (∀ s3 ∈ table3, ¬ s3.1 <+: l) →
      (∀ s2 ∈ table2, ¬ s2.1 <+: l) →
      symbol_from_text l p = .ok { value := s.2, pos := p } := by
    intro s hmem hpre h3 h2
    have ht : l.take 1 = s.1 := by
      rw [← table1_lengths s hmem]
      exact take_length_of_prefix hpre
    unfold symbol_from_text
    simp only [sym3_eq_none h3, sym2_eq_none h2, ht, sym1_key s hmem]
  refine ⟨P1, P2, P3, ?_⟩
  intro s hmem hpre
  rcases List.mem_append.mp hmem with h3 | h2
  · exact ⟨s, { value := s.2, pos := p }, List.mem_append_left _ h3,
      P1 s h3 hpre, rfl, hpre, le_refl _⟩
  · cases hs3 : sym3 (l.take 3) with
    | some v =>
      obtain ⟨s', hmem', hkey, hval⟩ := sym3_some hs3
      have hpre' : s'.1 <+: l := hkey ▸ List.take_prefix 3 l
      refine ⟨s', { value := v, pos := p }, List.mem_append_left _ hmem', ?_,
        hval.symm, hpre', ?_⟩
      · unfold symbol_from_text
        simp only [hs3]
      · rw [table2_lengths s h2, table3_lengths s' hmem']
        omega
    | none =>
      have ht : l.take 2 = s.1 := by
        rw [← table2_lengths s h2]
        exact take_length_of_prefix hpre
      refine ⟨s, { value := s.2, pos := p }, List.mem_append_right _ h2, ?_,
        rfl, hpre, le_refl _⟩
      unfold symbol_from_text
      simp only [hs3, ht, sym2_key s h2]

/-- Witness for C6: `=:=rest` parses as the 3-character `=:=`, and `==x`
(where no 3-character spelling applies) parses as the 2-character `==`. -/
theorem claim_C6_symbol_longest_match_witness :
    symbol_from_text "=:=rest".toList Position.new =
      .ok { value := .ExactEq, pos := Position.new } ∧
    symbol_from_text "==x".toList Position.new =
      .ok { value := .Eq, pos := Position.new } :=
  ⟨(claim_C6_symbol_longest_match "=:=rest".toList Position.new).1
      ("=:=".toList, .ExactEq) (by decide) (by decide),
   (claim_C6_symbol_longest_match "==x".toList Position.new).2.1
      ("==".toList, .Eq) (by decide) (by decide) (by decide)⟩

end ErlTokenize

namespace ErlTokenize

/-! Lemmas for C5: the integer scanner. -/

theorem int_scan_nil (pos : Position) (hR : Bool) (r : Nat) (d : List Char)
    (n : Bool) : int_scan pos [] hR r d n = .ok ⟨0, hR, r, d, n⟩ := rfl

theorem int_scan_cons (pos : Position) (c : Char) (rest : List Char)
    (hR : Bool) (r : Nat) (d : List Char) (n : Bool) :
    int_scan pos (c :: rest) hR r d n =
      if c = '#' ∧ ¬hR ∧ ¬n then
        match rustParseU32? d with
        | none => .error (.invalidIntegerToken pos)
        | some radix =>
          if 1 < radix ∧ radix < 37 then
            match int_scan pos rest true radix [] true with
            | .error e => .error e
            | .ok st => .ok { st with consumed := st.consumed + 1 }
          else .error (.invalidIntegerToken pos)
      else if is_digit r c then
        match int_scan pos rest hR r (d ++ [c]) false with
        | .error e => .error e
        | .ok st => .ok { st with consumed := st.consumed + 1 }
      else if c = '_' ∧ ¬n then
        match int_scan pos rest hR r d true with
        | .error e => .error e
        | .ok st => .ok { st with consumed := st.consumed + 1 }
      else .ok ⟨0, hR, r, d, n⟩ := rfl

theorem is_digit_underscore (r : Nat) : is_digit r '_' = false := rfl

theorem is_digit_hash (r : Nat) : is_digit r '#' = false := rfl

theorem is_digit_ne_underscore {r : Nat} {c : Char} (h : is_digit r c = true) :
    c ≠ '_' := by
  intro hc
  rw [hc, is_digit_underscore] at h
  exact Bool.false_ne_true h

theorem is_digit_ne_hash {r : Nat} {c : Char} (h : is_digit r c = true) :
    c ≠ '#' := by
  intro hc
  rw [hc, is_digit_hash] at h
  exact Bool.false_ne_true h

theorem spec_run_tail_cons (r : Nat) (c : Char) (l : List Char) :
    spec_run_tail r (c :: l) =
      if c = '_' then
        match l with
        | [] => false
        | c2 :: rest2 => is_digit r c2 && spec_run_tail r rest2
      else is_digit r c && spec_run_tail r l := by
  cases l with
  | nil => rfl
  | cons c2 rest2 => rfl

theorem spec_run_cons {r : Nat} {c : Char} {l : List Char}
    (hc : is_digit r c = true) (hl : spec_run_tail r l = true) :
    spec_run r (c :: l) = true := by
  simp [spec_run, hc, hl]

theorem spec_run_tail_digit_cons {r : Nat} {c : Char} {l : List Char}
    (hc : is_digit r c = true) (hl : spec_run_tail r l = true) :
    spec_run_tail r (c :: l) = true := by
  rw [spec_run_tail_cons, if_neg (is_digit_ne_underscore hc), hc, hl]
  rfl

theorem spec_run_tail_underscore_cons {r : Nat} {l : List Char}
    (hl : spec_run r l = true) : spec_run_tail r ('_' :: l) = true := by
  cases l with
  | nil => exact absurd hl (by simp [spec_run])
  | cons c2 rest2 =>
    simp only [spec_run, Bool.and_eq_true] at hl
    rw [spec_run_tail_cons, if_pos rfl]
    simp [hl.1, hl.2]

end ErlTokenize

namespace ErlTokenize

theorem int_scan_radix_sound (pos : Position) (r : Nat) :
    ∀ (l d : List Char) (n : Bool) (st : IntScan),
      int_scan pos l true r d n = .ok st → st.needsDigit = false →
      (if n then spec_run r (l.take st.consumed)
        else spec_run_tail r (l.take st.consumed)) = true := by
  intro l
  induction l with
  | nil =>
    intro d n st hscan hnd
    rw [int_scan_nil, Except.ok.injEq] at hscan
    subst hscan
    have hn : n = false := hnd
    subst hn
    simp [spec_run_tail]
  | cons c rest ih =>
    intro d n st hscan hnd
    rw [int_scan_cons] at hscan
    rw [if_neg (by simp)] at hscan
    by_cases hc : is_digit r c
    · rw [if_pos hc] at hscan
      cases hrec : int_scan pos rest true r (d ++ [c]) false with
      | error e => rw [hrec] at hscan; exact absurd hscan (by simp)
      | ok st1 =>
        rw [hrec] at hscan
        rw [Except.ok.injEq] at hscan
        subst hscan
        have e1 : ({st1 with consumed := st1.consumed + 1} : IntScan).consumed
            = st1.consumed + 1 := rfl
        have e2 : ({st1 with consumed := st1.consumed + 1} : IntScan).needsDigit
            = st1.needsDigit := rfl
        rw [e2] at hnd
        have ihh := ih (d ++ [c]) false st1 hrec hnd
        rw [if_neg Bool.false_ne_true] at ihh
        rw [e1, List.take_succ_cons]
        cases n with
        | true => rw [if_pos rfl]; exact spec_run_cons hc ihh
        | false =>
          rw [if_neg Bool.false_ne_true]
          exact spec_run_tail_digit_cons hc ihh
    · rw [if_neg hc] at hscan
      by_cases hu : c = '_' ∧ ¬(n = true)
      · rw [if_pos hu] at hscan
        cases hrec : int_scan pos rest true r d true with
        | error e => rw [hrec] at hscan; exact absurd hscan (by simp)
        | ok st1 =>
          rw [hrec] at hscan
          rw [Except.ok.injEq] at hscan
          subst hscan
          have e1 : ({st1 with consumed := st1.consumed + 1} : IntScan).consumed
              = st1.consumed + 1 := rfl
          have e2 : ({st1 with consumed := st1.consumed + 1} : IntScan).needsDigit
              = st1.needsDigit := rfl
          rw [e2] at hnd
          have ihh := ih d true st1 hrec hnd
          rw [if_pos rfl] at ihh
          obtain ⟨hcu, hnu⟩ := hu
          subst hcu
          cases n with
          | true => exact absurd rfl hnu
          | false =>
            rw [if_neg Bool.false_ne_true]
            rw [e1, List.take_succ_cons]
            exact spec_run_tail_underscore_cons ihh
      · rw [if_neg hu] at hscan
        rw [Except.ok.injEq] at hscan
        subst hscan
        have hn : n = false := hnd
        subst hn
        rw [if_neg Bool.false_ne_true]
        rfl

end ErlTokenize

namespace ErlTokenize

theorem int_scan_first_sound (pos : Position) (r : Nat) :
    ∀ (l d : List Char) (n : Bool) (st : IntScan),
      int_scan pos l false r d n = .ok st → st.needsDigit = false →
      (if n then spec_run r (l.take st.consumed)
        else spec_run_tail r (l.take st.consumed)) = true ∨
      ∃ runA runB radix,
        l.take st.consumed = runA ++ '#' :: runB ∧
        (if n then spec_run r runA else spec_run_tail r runA) = true ∧
        rustParseU32? (d ++ runA.filter fun x => x != '_') = some radix ∧
        1 < radix ∧ radix < 37 ∧ spec_run radix runB = true := by
  intro l
  induction l with
  | nil =>
    intro d n st hscan hnd
    rw [int_scan_nil, Except.ok.injEq] at hscan
    subst hscan
    have hn : n = false := hnd
    subst hn
    left
    simp [spec_run_tail]
  | cons c rest ih =>
    intro d n st hscan hnd
    rw [int_scan_cons] at hscan
    by_cases hh : c = '#' ∧ ¬(false = true) ∧ ¬(n = true)
    · rw [if_pos hh] at hscan
      obtain ⟨hch, -, hnn⟩ := hh
      cases hparse : rustParseU32? d with
      | none => rw [hparse] at hscan; exact absurd hscan (by simp)
      | some radix =>
        simp only [hparse] at hscan
        by_cases hrad : 1 < radix ∧ radix < 37
        · rw [if_pos hrad] at hscan
          cases hrec : int_scan pos rest true radix [] true with
          | error e => rw [hrec] at hscan; exact absurd hscan (by simp)
          | ok st1 =>
            rw [hrec] at hscan
            rw [Except.ok.injEq] at hscan
            subst hscan
            have e1 : ({st1 with consumed := st1.consumed + 1} : IntScan).consumed
                = st1.consumed + 1 := rfl
            have e2 : ({st1 with consumed := st1.consumed + 1} : IntScan).needsDigit
                = st1.needsDigit := rfl
            rw [e2] at hnd
            have hB := int_scan_radix_sound pos radix rest [] true st1 hrec hnd
            rw [if_pos rfl] at hB
            right
            refine ⟨[], rest.take st1.consumed, radix, ?_, ?_, ?_, hrad.1, hrad.2, hB⟩
            · rw [e1, List.take_succ_cons, hch]
              rfl
            · cases n with
              | true => exact absurd rfl hnn
              | false => rw [if_neg Bool.false_ne_true]; rfl
            · simpa using hparse
        · rw [if_neg hrad] at hscan
          exact absurd hscan (by simp)
    · rw [if_neg hh] at hscan
      by_cases hc : is_digit r c
      · rw [if_pos hc] at hscan
        cases hrec : int_scan pos rest false r (d ++ [c]) false with
        | error e => rw [hrec] at hscan; exact absurd hscan (by simp)
        | ok st1 =>
          rw [hrec] at hscan
          rw [Except.ok.injEq] at hscan
          subst hscan
          have e1 : ({st1 with consumed := st1.consumed + 1} : IntScan).consumed
              = st1.consumed + 1 := rfl
          have e2 : ({st1 with consumed := st1.consumed + 1} : IntScan).needsDigit
              = st1.needsDigit := rfl
          rw [e2] at hnd
          have hbne : (c != '_') = true := bne_iff_ne.mpr (is_digit_ne_underscore hc)
          rcases ih (d ++ [c]) false st1 hrec hnd with hleft | hright
          · rw [if_neg Bool.false_ne_true] at hleft
            left
            rw [e1, List.take_succ_cons]
            cases n with
            | true => rw [if_pos rfl]; exact spec_run_cons hc hleft
            | false =>
              rw [if_neg Bool.false_ne_true]
              exact spec_run_tail_digit_cons hc hleft
          · obtain ⟨runA, runB, radix, htake, hcont, hparse, h1, h37, hrunB⟩ := hright
            rw [if_neg Bool.false_ne_true] at hcont
            right
            refine ⟨c :: runA, runB, radix, ?_, ?_, ?_, h1, h37, hrunB⟩
            · rw [e1, List.take_succ_cons, htake]
              rfl
            · cases n with
              | true => rw [if_pos rfl]; exact spec_run_cons hc hcont
              | false =>
                rw [if_neg Bool.false_ne_true]
                exact spec_run_tail_digit_cons hc hcont
            · have hfc : List.filter (fun x => x != '_') (c :: runA)
                  = c :: List.filter (fun x => x != '_') runA := by
                simp [List.filter_cons, hbne]
              rw [hfc, ← hparse]
              simp [List.append_assoc]
      · rw [if_neg hc] at hscan
        by_cases hu : c = '_' ∧ ¬(n = true)
        · rw [if_pos hu] at hscan
          cases hrec : int_scan pos rest false r d true with
          | error e => rw [hrec] at hscan; exact absurd hscan (by simp)
          | ok st1 =>
            rw [hrec] at hscan
            rw [Except.ok.injEq] at hscan
            subst hscan
            have e1 : ({st1 with consumed := st1.consumed + 1} : IntScan).consumed
                = st1.consumed + 1 := rfl
            have e2 : ({st1 with consumed := st1.consumed + 1} : IntScan).needsDigit
                = st1.needsDigit := rfl
            rw [e2] at hnd
            obtain ⟨hcu, hnu⟩ := hu
            subst hcu
            rcases ih d true st1 hrec hnd with hleft | hright
            · rw [if_pos rfl] at hleft
              left
              rw [e1, List.take_succ_cons]
              cases n with
              | true => exact absurd rfl hnu
              | false =>
                rw [if_neg Bool.false_ne_true]
                exact spec_run_tail_underscore_cons hleft
            · obtain ⟨runA, runB, radix, htake, hcont, hparse, h1, h37, hrunB⟩ := hright
              rw [if_pos rfl] at hcont
              right
              refine ⟨'_' :: runA, runB, radix, ?_, ?_, ?_, h1, h37, hrunB⟩
              · rw [e1, List.take_succ_cons, htake]
                rfl
              · cases n with
                | true => exact absurd rfl hnu
                | false =>
                  rw [if_neg Bool.false_ne_true]
                  exact spec_run_tail_underscore_cons hcont
              · have hfc : List.filter (fun x => x != '_') ('_' :: runA)
                    = List.filter (fun x => x != '_') runA := by
                  simp [List.filter_cons]
                rw [hfc]
                exact hparse
        · rw [if_neg hu] at hscan
          rw [Except.ok.injEq] at hscan
          subst hscan
          have hn : n = false := hnd
          subst hn
          left
          rw [if_neg Bool.false_ne_true]
          rfl

end ErlTokenize

namespace ErlTokenize

theorem int_scan_invalid (pos : Position) :
    ∀ (l : List Char) (hR : Bool) (r : Nat) (d : List Char) (n : Bool) (e : Error),
      int_scan pos l hR r d n = .error e → e = .invalidIntegerToken pos := by
  intro l
  induction l with
  | nil =>
    intro hR r d n e hscan
    rw [int_scan_nil] at hscan
    exact absurd hscan (by simp)
  | cons c rest ih =>
    intro hR r d n e hscan
    rw [int_scan_cons] at hscan
    by_cases hh : c = '#' ∧ ¬(hR = true) ∧ ¬(n = true)
    · rw [if_pos hh] at hscan
      cases hparse : rustParseU32? d with
      | none =>
        simp only [hparse, Except.error.injEq] at hscan
        exact hscan.symm
      | some radix =>
        simp only [hparse] at hscan
        by_cases hrad : 1 < radix ∧ radix < 37
        · rw [if_pos hrad] at hscan
          cases hrec : int_scan pos rest true radix [] true with
          | error e1 =>
            simp only [hrec, Except.error.injEq] at hscan
            exact hscan ▸ ih true radix [] true e1 hrec
          | ok st1 => rw [hrec] at hscan; exact absurd hscan (by simp)
        · rw [if_neg hrad] at hscan
          simp only [Except.error.injEq] at hscan
          exact hscan.symm
    · rw [if_neg hh] at hscan
      by_cases hc : is_digit r c
      · rw [if_pos hc] at hscan
        cases hrec : int_scan pos rest hR r (d ++ [c]) false with
        | error e1 =>
          simp only [hrec, Except.error.injEq] at hscan
          exact hscan ▸ ih hR r (d ++ [c]) false e1 hrec
        | ok st1 => rw [hrec] at hscan; exact absurd hscan (by simp)
      · rw [if_neg hc] at hscan
        by_cases hu : c = '_' ∧ ¬(n = true)
        · rw [if_pos hu] at hscan
          cases hrec : int_scan pos rest hR r d true with
          | error e1 =>
            simp only [hrec, Except.error.injEq] at hscan
            exact hscan ▸ ih hR r d true e1 hrec
          | ok st1 => rw [hrec] at hscan; exact absurd hscan (by simp)
        · rw [if_neg hu] at hscan
          exact absurd hscan (by simp)

end ErlTokenize

namespace ErlTokenize

theorem spec_chars (r : Nat) :
    ∀ (l : List Char) (n : Bool),
      (if n then spec_run r l else spec_run_tail r l) = true →
      ∀ c ∈ l, c ≠ '_' → is_digit r c = true := by
  intro l
  induction l with
  | nil =>
    intro n _ c hc
    exact absurd hc (List.not_mem_nil c)
  | cons a rest ih =>
    intro n hrun c hc hcu
    cases n with
    | true =>
      rw [if_pos rfl] at hrun
      simp only [spec_run, Bool.and_eq_true] at hrun
      rcases List.mem_cons.mp hc with rfl | hmem
      · exact hrun.1
      · refine ih false ?_ c hmem hcu
        rw [if_neg Bool.false_ne_true]
        exact hrun.2
    | false =>
      rw [if_neg Bool.false_ne_true] at hrun
      by_cases ha : a = '_'
      · subst ha
        cases rest with
        | nil =>
          rw [spec_run_tail_cons, if_pos rfl] at hrun
          exact absurd hrun (by simp)
        | cons c2 rest2 =>
          rw [spec_run_tail_cons, if_pos rfl] at hrun
          rcases List.mem_cons.mp hc with rfl | hmem
          · exact absurd rfl hcu
          · refine ih true ?_ c hmem hcu
            rw [if_pos rfl]
            simp only [Bool.and_eq_true] at hrun
            exact spec_run_cons hrun.1 hrun.2
      · rw [spec_run_tail_cons, if_neg ha, Bool.and_eq_true] at hrun
        rcases List.mem_cons.mp hc with rfl | hmem
        · exact hrun.1
        · refine ih false ?_ c hmem hcu
          rw [if_neg Bool.false_ne_true]
          exact hrun.2

theorem spec_run_filter_ne_nil (r : Nat) (l : List Char)
    (h : spec_run r l = true) : l.filter (fun c => c != '_') ≠ [] := by
  cases l with
  | nil => exact absurd h (by simp [spec_run])
  | cons a rest =>
    simp only [spec_run, Bool.and_eq_true] at h
    have hbne : (a != '_') = true := bne_iff_ne.mpr (is_digit_ne_underscore h.1)
    simp [List.filter_cons, hbne]

theorem biguint_foldl_some (r : Nat) :
    ∀ (dl : List Char) (a : Nat), (∀ c ∈ dl, is_digit r c = true) →
      ∃ v, dl.foldl
        (fun acc c => acc.bind fun x => (to_digit? r c).map fun w => x * r + w)
        (some a) = some v := by
  intro dl
  induction dl with
  | nil =>
    intro a _
    exact ⟨a, rfl⟩
  | cons c rest ih =>
    intro a hall
    have hc : is_digit r c = true := hall c (List.mem_cons_self c rest)
    unfold is_digit at hc
    obtain ⟨w, hw⟩ := Option.isSome_iff_exists.mp hc
    rw [List.foldl_cons]
    simp only [Option.some_bind, hw, Option.map_some']
    exact ih (a * r + w) (fun c2 h2 => hall c2 (List.mem_cons_of_mem c h2))

theorem biguint_some (r : Nat) (dl : List Char) (hne : dl ≠ [])
    (hall : ∀ c ∈ dl, is_digit r c = true) :
    ∃ v, biguint_parse_bytes? dl r = some v := by
  unfold biguint_parse_bytes?
  rw [if_neg hne]
  exact biguint_foldl_some r dl 0 hall

end ErlTokenize

namespace ErlTokenize

theorem int_scan_radix_complete (pos : Position) (r : Nat) :
    ∀ (l d : List Char) (n : Bool),
      (if n then spec_run r l else spec_run_tail r l) = true →
      int_scan pos l true r d n =
        .ok ⟨l.length, true, r, d ++ l.filter (fun c => c != '_'), false⟩ := by
  intro l
  induction l with
  | nil =>
    intro d n hrun
    cases n with
    | true =>
      rw [if_pos rfl] at hrun
      exact absurd hrun (by simp [spec_run])
    | false =>
      rw [int_scan_nil]
      simp
  | cons c rest ih =>
    intro d n hrun
    rw [int_scan_cons, if_neg (by simp)]
    cases n with
    | true =>
      rw [if_pos rfl] at hrun
      simp only [spec_run, Bool.and_eq_true] at hrun
      obtain ⟨hc, htail⟩ := hrun
      have hbne : (c != '_') = true := bne_iff_ne.mpr (is_digit_ne_underscore hc)
      rw [if_pos hc]
      have harg : (if (false : Bool) = true then spec_run r rest
          else spec_run_tail r rest) = true := by
        rw [if_neg Bool.false_ne_true]; exact htail
      rw [ih (d ++ [c]) false harg]
      simp [List.filter_cons, hbne, List.append_assoc]
    | false =>
      rw [if_neg Bool.false_ne_true] at hrun
      by_cases hcu : c = '_'
      · subst hcu
        cases rest with
        | nil =>
          rw [spec_run_tail_cons, if_pos rfl] at hrun
          exact absurd hrun (by simp)
        | cons c2 rest2 =>
          rw [spec_run_tail_cons, if_pos rfl] at hrun
          simp only [Bool.and_eq_true] at hrun
          rw [if_neg (by rw [is_digit_underscore]; exact Bool.false_ne_true)]
          rw [if_pos ⟨rfl, Bool.false_ne_true⟩]
          have harg : (if (true : Bool) = true then spec_run r (c2 :: rest2)
              else spec_run_tail r (c2 :: rest2)) = true := by
            rw [if_pos rfl]; exact spec_run_cons hrun.1 hrun.2
          rw [ih d true harg]
          simp [List.filter_cons]
      · rw [spec_run_tail_cons, if_neg hcu, Bool.and_eq_true] at hrun
        obtain ⟨hc, htail⟩ := hrun
        have hbne : (c != '_') = true := bne_iff_ne.mpr hcu
        rw [if_pos hc]
        have harg : (if (false : Bool) = true then spec_run r rest
            else spec_run_tail r rest) = true := by
          rw [if_neg Bool.false_ne_true]; exact htail
        rw [ih (d ++ [c]) false harg]
        simp [List.filter_cons, hbne, List.append_assoc]

end ErlTokenize

namespace ErlTokenize

theorem int_scan_first_complete (pos : Position) (r : Nat) :
    ∀ (l d : List Char) (n : Bool),
      (if n then spec_run r l else spec_run_tail r l) = true →
      int_scan pos l false r d n =
        .ok ⟨l.length, false, r, d ++ l.filter (fun c => c != '_'), false⟩ := by
  intro l
  induction l with
  | nil =>
    intro d n hrun
    cases n with
    | true =>
      rw [if_pos rfl] at hrun
      exact absurd hrun (by simp [spec_run])
    | false =>
      rw [int_scan_nil]
      simp
  | cons c rest ih =>
    intro d n hrun
    cases n with
    | true =>
      rw [if_pos rfl] at hrun
      simp only [spec_run, Bool.and_eq_true] at hrun
      obtain ⟨hc, htail⟩ := hrun
      have hbne : (c != '_') = true := bne_iff_ne.mpr (is_digit_ne_underscore hc)
      rw [int_scan_cons, if_neg (by simp), if_pos hc]
      have harg : (if (false : Bool) = true then spec_run r rest
          else spec_run_tail r rest) = true := by
        rw [if_neg Bool.false_ne_true]; exact htail
      rw [ih (d ++ [c]) false harg]
      simp [List.filter_cons, hbne, List.append_assoc]
    | false =>
      rw [if_neg Bool.false_ne_true] at hrun
      by_cases hcu : c = '_'
      · subst hcu
        cases rest with
        | nil =>
          rw [spec_run_tail_cons, if_pos rfl] at hrun
          exact absurd hrun (by simp)
        | cons c2 rest2 =>
          rw [spec_run_tail_cons, if_pos rfl] at hrun
          simp only [Bool.and_eq_true] at hrun
          rw [int_scan_cons, if_neg (fun hx => absurd hx.1 (by decide))]
          rw [if_neg (by rw [is_digit_underscore]; exact Bool.false_ne_true)]
          rw [if_pos ⟨rfl, Bool.false_ne_true⟩]
          have harg : (if (true : Bool) = true then spec_run r (c2 :: rest2)
              else spec_run_tail r (c2 :: rest2)) = true := by
            rw [if_pos rfl]; exact spec_run_cons hrun.1 hrun.2
          rw [ih d true harg]
          simp [List.filter_cons]
      · rw [spec_run_tail_cons, if_neg hcu, Bool.and_eq_true] at hrun
        obtain ⟨hc, htail⟩ := hrun
        have hbne : (c != '_') = true := bne_iff_ne.mpr hcu
        rw [int_scan_cons, if_neg (fun hx => is_digit_ne_hash hc hx.1), if_pos hc]
        have harg : (if (false : Bool) = true then spec_run r rest
            else spec_run_tail r rest) = true := by
          rw [if_neg Bool.false_ne_true]; exact htail
        rw [ih (d ++ [c]) false harg]
        simp [List.filter_cons, hbne, List.append_assoc]

end ErlTokenize

namespace ErlTokenize

theorem int_scan_hash_complete (pos : Position) :
    ∀ (run1 d : List Char) (n : Bool) (run2 : List Char) (radix : Nat),
      (if n then spec_run 10 run1 else spec_run_tail 10 run1) = true →
      rustParseU32? (d ++ run1.filter fun x => x != '_') = some radix →
      1 < radix → radix < 37 →
      spec_run radix run2 = true →
      int_scan pos (run1 ++ '#' :: run2) false 10 d n =
        .ok ⟨run1.length + (run2.length + 1), true, radix,
             run2.filter (fun c => c != '_'), false⟩ := by
  intro run1
  induction run1 with
  | nil =>
    intro d n run2 radix hrun hparse h1 h37 hrun2
    cases n with
    | true =>
      rw [if_pos rfl] at hrun
      exact absurd hrun (by simp [spec_run])
    | false =>
      simp only [List.filter_nil, List.append_nil] at hparse
      rw [List.nil_append, int_scan_cons,
        if_pos ⟨rfl, Bool.false_ne_true, Bool.false_ne_true⟩]
      simp only [hparse]
      rw [if_pos ⟨h1, h37⟩]
      have harg : (if (true : Bool) = true then spec_run radix run2
          else spec_run_tail radix run2) = true := by
        rw [if_pos rfl]; exact hrun2
      rw [int_scan_radix_complete pos radix run2 [] true harg]
      simp only [Except.ok.injEq, IntScan.mk.injEq, List.length_nil,
        List.nil_append]
      exact ⟨by omega, trivial, trivial, trivial, trivial⟩
  | cons c rest1 ih =>
    intro d n run2 radix hrun hparse h1 h37 hrun2
    cases n with
    | true =>
      rw [if_pos rfl] at hrun
      simp only [spec_run, Bool.and_eq_true] at hrun
      obtain ⟨hc, htail⟩ := hrun
      have hbne : (c != '_') = true := bne_iff_ne.mpr (is_digit_ne_underscore hc)
      rw [List.cons_append, int_scan_cons, if_neg (by simp), if_pos hc]
      have harg : (if (false : Bool) = true then spec_run 10 rest1
          else spec_run_tail 10 rest1) = true := by
        rw [if_neg Bool.false_ne_true]; exact htail
      have hparse2 : rustParseU32?
          ((d ++ [c]) ++ List.filter (fun x => x != '_') rest1) = some radix := by
        rw [← hparse]
        congr 1
        simp [List.filter_cons, hbne, List.append_assoc]
      rw [ih (d ++ [c]) false run2 radix harg hparse2 h1 h37 hrun2]
      simp only [Except.ok.injEq, IntScan.mk.injEq, List.length_cons]
      exact ⟨by omega, trivial, trivial, trivial, trivial⟩
    | false =>
      rw [if_neg Bool.false_ne_true] at hrun
      by_cases hcu : c = '_'
      · subst hcu
        cases rest1 with
        | nil =>
          rw [spec_run_tail_cons, if_pos rfl] at hrun
          exact absurd hrun (by simp)
        | cons c2 rest2 =>
          rw [spec_run_tail_cons, if_pos rfl] at hrun
          simp only [Bool.and_eq_true] at hrun
          rw [List.cons_append, int_scan_cons,
            if_neg (fun hx => absurd hx.1 (by decide))]
          rw [if_neg (by rw [is_digit_underscore]; exact Bool.false_ne_true)]
          rw [if_pos ⟨rfl, Bool.false_ne_true⟩]
          have harg : (if (true : Bool) = true then spec_run 10 (c2 :: rest2)
              else spec_run_tail 10 (c2 :: rest2)) = true := by
            rw [if_pos rfl]; exact spec_run_cons hrun.1 hrun.2
          have hparse2 : rustParseU32?
              (d ++ List.filter (fun x => x != '_') (c2 :: rest2))
              = some radix := by
            rw [← hparse]
            congr 1
          rw [ih d true run2 radix harg hparse2 h1 h37 hrun2]
          simp only [Except.ok.injEq, IntScan.mk.injEq, List.length_cons]
          exact ⟨by omega, trivial, trivial, trivial, trivial⟩
      · rw [spec_run_tail_cons, if_neg hcu, Bool.and_eq_true] at hrun
        obtain ⟨hc, htail⟩ := hrun
        have hbne : (c != '_') = true := bne_iff_ne.mpr hcu
        rw [List.cons_append, int_scan_cons,
          if_neg (fun hx => is_digit_ne_hash hc hx.1), if_pos hc]
        have harg : (if (false : Bool) = true then spec_run 10 rest1
            else spec_run_tail 10 rest1) = true := by
          rw [if_neg Bool.false_ne_true]; exact htail
        have hparse2 : rustParseU32?
            ((d ++ [c]) ++ List.filter (fun x => x != '_') rest1)
            = some radix := by
          rw [← hparse]
          congr 1
          simp [List.filter_cons, hbne, List.append_assoc]
        rw [ih (d ++ [c]) false run2 radix harg hparse2 h1 h37 hrun2]
        simp only [Except.ok.injEq, IntScan.mk.injEq, List.length_cons]
        exact ⟨by omega, trivial, trivial, trivial, trivial⟩

end ErlTokenize

namespace ErlTokenize

/-- C5: `IntegerToken::from_text` reads a greedy digit run with `_`
separators in which every `_` sits between two digits, optionally followed by
`#` (reinterpreting the accumulated digits as a radix in `2..=36`) and a
second digit run in that radix with the same underscore rule: the text of
every token it accepts is a prefix of the input of exactly that shape
(soundness), every input that is entirely of that shape is accepted with the
full input as token text (greediness/completeness), every rejection reports
`InvalidIntegerToken` at the given position, and on `"1_6#ab0e"` it succeeds
with value `43790 = 0xAB0E` and text `"1_6#ab0e"`. -/
theorem claim_C5_integer_token (text : List Char) (pos : Position) :
    int_from_text "1_6#ab0e".toList pos =
      .ok { value := 43790, text := "1_6#ab0e".toList, pos := pos } ∧
    (∀ tok, int_from_text text pos = .ok tok →
      tok.pos = pos ∧ tok.text <+: text ∧ ValidIntegerText tok.text) ∧
    (ValidIntegerText text →
      ∃ tok, int_from_text text pos = .ok tok ∧ tok.text = text) ∧
    (∀ e, int_from_text text pos = .error e → e = .invalidIntegerToken pos) := by
  refine ⟨rfl, ?_, ?_, ?_⟩
  · intro tok htok
    unfold int_from_text at htok
    cases hscan : int_scan pos text false 10 [] true with
    | error e => rw [hscan] at htok; exact absurd htok (by simp)
    | ok st =>
      simp only [hscan] at htok
      by_cases hn : st.needsDigit
      · rw [if_pos hn] at htok
        exact absurd htok (by simp)
      · rw [if_neg hn] at htok
        have hnd : st.needsDigit = false := by
          revert hn; cases st.needsDigit <;> simp
        cases hbig : biguint_parse_bytes? st.digits st.radix with
        | none =>
          simp only [hbig] at htok
          exact absurd htok (by simp)
        | some v =>
          simp only [hbig, Except.ok.injEq] at htok
          subst htok
          refine ⟨rfl, List.take_prefix _ _, ?_⟩
          rcases int_scan_first_sound pos 10 text [] true st hscan hnd
            with hleft | hright
          · rw [if_pos rfl] at hleft
            exact Or.inl hleft
          · obtain ⟨runA, runB, radix, htake, hcont, hparse, h1, h37, hrunB⟩ :=
              hright
            rw [if_pos rfl] at hcont
            simp only [List.nil_append] at hparse
            unfold rustParseU32? at hparse
            by_cases hf0 : List.filter (fun x => x != '_') runA = []
            · rw [if_pos hf0] at hparse
              exact absurd hparse (by simp)
            · rw [if_neg hf0] at hparse
              by_cases hf1 : natOfDecDigits (List.filter (fun x => x != '_') runA)
                  < 2 ^ 32
              · rw [if_pos hf1, Option.some.injEq] at hparse
                right
                refine ⟨runA, runB, htake, hcont, ?_, ?_, ?_⟩
                · rw [hparse]; omega
                · rw [hparse]; omega
                · rw [hparse]; exact hrunB
              · rw [if_neg hf1] at hparse
                exact absurd hparse (by simp)
  · intro hvalid
    rcases hvalid with hleft | ⟨run1, run2, heq, hrun1, h2r, h36, hrun2⟩
    · have harg : (if (true : Bool) = true then spec_run 10 text
          else spec_run_tail 10 text) = true := by
        rw [if_pos rfl]; exact hleft
      have hscan := int_scan_first_complete pos 10 text [] true harg
      have hchars : ∀ c ∈ List.filter (fun c => c != '_') text,
          is_digit 10 c = true := by
        intro c hcmem
        obtain ⟨hmem, hp⟩ := List.mem_filter.mp hcmem
        exact spec_chars 10 text true harg c hmem (bne_iff_ne.mp hp)
      obtain ⟨v, hv⟩ := biguint_some 10 (List.filter (fun c => c != '_') text)
        (spec_run_filter_ne_nil 10 text hleft) hchars
      refine ⟨⟨v, text, pos⟩, ?_, rfl⟩
      unfold int_from_text
      rw [hscan]
      simp [hv, List.take_length]
    · subst heq
      have hfne := spec_run_filter_ne_nil 10 run1 hrun1
      have h32 : natOfDecDigits (List.filter (fun c => c != '_') run1)
          < 2 ^ 32 := by
        have hp32 : (2 : Nat) ^ 32 = 4294967296 := by norm_num
        omega
      have hparse : rustParseU32? ([] ++ List.filter (fun x => x != '_') run1)
          = some (natOfDecDigits (List.filter (fun c => c != '_') run1)) := by
        simp only [List.nil_append]
        unfold rustParseU32?
        rw [if_neg hfne, if_pos h32]
      have harg1 : (if (true : Bool) = true then spec_run 10 run1
          else spec_run_tail 10 run1) = true := by
        rw [if_pos rfl]; exact hrun1
      have hscan := int_scan_hash_complete pos run1 [] true run2
        (natOfDecDigits (List.filter (fun c => c != '_') run1)) harg1 hparse
        (by omega) (by omega) hrun2
      have hchars : ∀ c ∈ List.filter (fun c => c != '_') run2,
          is_digit (natOfDecDigits (List.filter (fun c => c != '_') run1)) c
            = true := by
        intro c hcmem
        obtain ⟨hmem, hp⟩ := List.mem_filter.mp hcmem
        refine spec_chars _ run2 true ?_ c hmem (bne_iff_ne.mp hp)
        rw [if_pos rfl]; exact hrun2
      obtain ⟨v, hv⟩ := biguint_some _ (List.filter (fun c => c != '_') run2)
        (spec_run_filter_ne_nil _ run2 hrun2) hchars
      have hlen : (run1 ++ '#' :: run2).length
          = run1.length + (run2.length + 1) := by
        simp
      have htake : (run1 ++ '#' :: run2).take (run1.length + (run2.length + 1))
          = run1 ++ '#' :: run2 := by
        rw [← hlen, List.take_length]
      refine ⟨⟨v, run1 ++ '#' :: run2, pos⟩, ?_, rfl⟩
      unfold int_from_text
      rw [hscan]
      simp [hv, htake]
  · intro e he
    unfold int_from_text at he
    cases hscan : int_scan pos text false 10 [] true with
    | error e1 =>
      simp only [hscan, Except.error.injEq] at he
      exact he ▸ int_scan_invalid pos text false 10 [] true e1 hscan
    | ok st =>
      simp only [hscan] at he
      by_cases hn : st.needsDigit
      · rw [if_pos hn] at he
        simp only [Except.error.injEq] at he
        exact he.symm
      · rw [if_neg hn] at he
        cases hbig : biguint_parse_bytes? st.digits st.radix with
        | none =>
          simp only [hbig, Except.error.injEq] at he
          exact he.symm
        | some v =>
          simp only [hbig] at he
          exact absurd he (by simp)

end ErlTokenize

namespace ErlTokenize

/-- Witness for C5: the parsed `"1_6#ab0e"` token has the claimed position,
prefix text and spec-conforming shape; the fully valid input `"10"` is
consumed entirely; and the rejected input `"1_"` (trailing underscore)
reports `InvalidIntegerToken`. -/
theorem claim_C5_integer_token_witness :
    ((⟨43790, "1_6#ab0e".toList, Position.new⟩ : IntegerToken).pos
        = Position.new ∧
      (⟨43790, "1_6#ab0e".toList, Position.new⟩ : IntegerToken).text
        <+: "1_6#ab0e".toList ∧
      ValidIntegerText
        (⟨43790, "1_6#ab0e".toList, Position.new⟩ : IntegerToken).text) ∧
    (∃ tok, int_from_text "10".toList Position.new = .ok tok ∧
      tok.text = "10".toList) ∧
    Error.invalidIntegerToken Position.new
      = .invalidIntegerToken Position.new :=
  ⟨(claim_C5_integer_token "1_6#ab0e".toList Position.new).2.1
      ⟨43790, "1_6#ab0e".toList, Position.new⟩ (by rfl),
   (claim_C5_integer_token "10".toList Position.new).2.2.1 (Or.inl (by decide)),
   (claim_C5_integer_token "1_".toList Position.new).2.2.2
      (Error.invalidIntegerToken Position.new) (by rfl)⟩

end ErlTokenize
